import Mathlib

/-!
Verification development for the BOG_CHAT retrieval pipeline
(`backend/create_vector_embedding.py` and `backend/rag_query_handler.py`).

The Python source is shallowly embedded: strings are `String`/`List Char`,
each `re` substitution or scan is implemented as a character-level scanner
with the same leftmost, non-overlapping semantics (word characters, word
boundaries, greedy repetition and the relevant backtracking cases are
modelled explicitly), and the stateful loops become explicit folds over
state records.  All definitions are structurally recursive so that they
evaluate by `decide` on concrete inputs.

Character classes model the ASCII behaviour of Python's `re` module
(`\w`, `\s`, `\d`) and of `str.strip`.
-/

namespace BogChat

/-- Python `\w` (ASCII): letters, digits and underscore. -/
def isWordPy (c : Char) : Bool := c.isAlpha || c.isDigit || c = '_'

/-- Python `\s` (ASCII): space, tab, newline, carriage return, vertical tab, form feed. -/
def isSpacePy (c : Char) : Bool :=
  c = ' ' || c = '\t' || c = '\n' || c = '\r' || c = '\x0b' || c = '\x0c'

/-- The character class `[\x00-\x1F\x7F-\x9F]` removed by the first
`clean_text` substitution. -/
def isCtrlPy (c : Char) : Bool := c.toNat ≤ 0x1F || (0x7F ≤ c.toNat && c.toNat ≤ 0x9F)

/-- The bullet/placeholder glyphs of the class `[•▪�]`. -/
def isGlyph (c : Char) : Bool := c = '•' || c = '▪' || c = '�'

/-- `MIN_CHUNK_LENGTH` from `create_vector_embedding.py`. -/
def MIN_CHUNK_LENGTH : Nat := 100

instance {ε α : Type} [DecidableEq ε] [DecidableEq α] : DecidableEq (Except ε α) := fun x y =>
  match x, y with
  | .error a, .error b =>
    if h : a = b then .isTrue (by rw [h]) else .isFalse (fun hc => h (Except.error.inj hc))
  | .ok a, .ok b =>
    if h : a = b then .isTrue (by rw [h]) else .isFalse (fun hc => h (Except.ok.inj hc))
  | .error _, .ok _ => .isFalse (fun hc => Except.noConfusion hc)
  | .ok _, .error _ => .isFalse (fun hc => Except.noConfusion hc)

/-- `COMBINED_INDEX_NAME` from `create_vector_embedding.py`. -/
def COMBINED_INDEX_NAME : String := "db_faiss"

/-! ### Stage 1: `re.sub(r'[\x00-\x1F\x7F-\x9F]', '', text)` -/

def subCtrl (l : List Char) : List Char := l.filter (fun c => !isCtrlPy c)

/-! ### Stage 2: `re.sub(r'(?<=\w)-\s+(?=\w)', '', text)`

A hyphen preceded by a word character and followed by one or more
whitespace characters and then a word character is removed together with
the whitespace.  The scanner state is `some prevW` (scanning, `prevW` =
"the previous character of the original string is a word character") or
`none` (currently deleting the whitespace run of a match). -/

/-- Is the head of the list a word character? -/
def headWord : List Char → Bool
  | [] => false
  | c :: _ => isWordPy c

/-- The lookahead used when stage 2 considers a hyphen: at least one
whitespace character followed by a word character. -/
def hyphenCond (rest : List Char) : Bool :=
  !(rest.takeWhile isSpacePy).isEmpty && headWord (rest.dropWhile isSpacePy)

def hjGo : Option Bool → List Char → List Char
  | _, [] => []
  | some prevW, c :: rest =>
    if c = '-' && prevW && hyphenCond rest then hjGo none rest
    else c :: hjGo (some (isWordPy c)) rest
  | none, c :: rest =>
    if isSpacePy c then hjGo none rest
    else c :: hjGo (some (isWordPy c)) rest

def subHyphen (l : List Char) : List Char := hjGo (some false) l

/-! ### Stage 3: `re.sub(r'\s+', ' ', text)` -/

def collapseWs : List Char → List Char
  | [] => []
  | [c] => if isSpacePy c then [' '] else [c]
  | c :: d :: l =>
    if isSpacePy c && isSpacePy d then collapseWs (d :: l)
    else (if isSpacePy c then ' ' else c) :: collapseWs (d :: l)

/-! ### Stage 4: `re.sub(r'[•▪�]+', ' ', text)` -/

def subGlyphs : List Char → List Char
  | [] => []
  | [c] => if isGlyph c then [' '] else [c]
  | c :: d :: l =>
    if isGlyph c && isGlyph d then subGlyphs (d :: l)
    else (if isGlyph c then ' ' else c) :: subGlyphs (d :: l)

/-! ### Stage 5: `re.sub(r'(?i)\b(?:page|pase)\s*\d+\b', '', text)`

`pageLenAt l` peeks at position `l` (the word boundary before the literal
is checked by the scanner) and returns the length of the match there, if
any: a case-insensitive `page`/`pase`, then the whitespace run, then a
non-empty digit run whose following character must not be a word
character (the `\b`; a shorter digit run can never satisfy it, since the
next character would be a digit). -/

/-- Case-insensitive literal matcher; `lit` is given in lower case.
Returns the remainder of the input after the literal. -/
def matchLit : List Char → List Char → Option (List Char)
  | [], l => some l
  | _ :: _, [] => none
  | d :: ds, c :: l => if c.toLower = d then matchLit ds l else none

/-- The whitespace-then-digits-then-boundary part of the pattern, applied to the remainder `r`
after the literal: the length of the whitespace run plus the digit run,
provided the digit run is non-empty and is followed by a non-word
character or the end. -/
def pageTail (r : List Char) : Option Nat :=
  if !((r.dropWhile isSpacePy).takeWhile Char.isDigit).isEmpty &&
      (match ((r.dropWhile isSpacePy).dropWhile Char.isDigit).head? with
       | none => true
       | some c => !isWordPy c) then
    some ((r.takeWhile isSpacePy).length +
      ((r.dropWhile isSpacePy).takeWhile Char.isDigit).length)
  else none

def pageLenAt (l : List Char) : Option Nat :=
  match (matchLit "page".data l).orElse (fun _ => matchLit "pase".data l) with
  | none => none
  | some r => (pageTail r).map (fun n => 4 + n)

/-- Scanner state: `.inl prevW` is scanning; `.inr k` is deleting `k`
more characters of a match. -/
def spGo : Bool ⊕ Nat → List Char → List Char
  | _, [] => []
  | .inl prevW, c :: l =>
    if prevW then c :: spGo (.inl (isWordPy c)) l
    else
      match pageLenAt (c :: l) with
      | some n => if n ≤ 1 then spGo (.inl true) l else spGo (.inr (n - 1)) l
      | none => c :: spGo (.inl (isWordPy c)) l
  | .inr k, _ :: l => if k ≤ 1 then spGo (.inl true) l else spGo (.inr (k - 1)) l

def subPage (l : List Char) : List Char := spGo (.inl false) l

/-! ### Stage 6: `re.sub(r'_{2,}', '', text)` -/

def suGo : Bool → List Char → List Char
  | _, [] => []
  | dropping, c :: l =>
    if c = '_' then
      if dropping || l.head? = some '_' then suGo true l else '_' :: suGo false l
    else c :: suGo false l

def subUnderscores (l : List Char) : List Char := suGo false l

/-! ### Stage 7: `.strip()` -/

/-- Remove trailing whitespace. -/
def pyTrailStrip (l : List Char) : List Char :=
  (l.reverse.dropWhile isSpacePy).reverse

def pyStripList (l : List Char) : List Char :=
  pyTrailStrip (l.dropWhile isSpacePy)

/-! ### Match-existence scanners

For the idempotence analysis each removal stage gets a Boolean scanner
deciding whether the stage's pattern occurs anywhere (tracking the same
word-boundary flag as the rewriting scanner); a stage acts as the
identity exactly when its scanner returns `false`. -/

/-- Does `(?<=\w)-\s+(?=\w)` match anywhere? -/
def hwGo : Bool → List Char → Bool
  | _, [] => false
  | prevW, c :: l => (c = '-' && prevW && hyphenCond l) || hwGo (isWordPy c) l

/-- Does `(?i)\b(?:page|pase)\s*\d+\b` match anywhere? -/
def hasPage : Bool → List Char → Bool
  | _, [] => false
  | prevW, c :: l => (!prevW && (pageLenAt (c :: l)).isSome) || hasPage (isWordPy c) l

/-- Does `_{2,}` match anywhere? -/
def hasUU : List Char → Bool
  | [] => false
  | c :: l => (c = '_' && l.head? = some '_') || hasUU l

/-- Whitespace-canonical: every whitespace character is a plain space and
no two adjacent characters are both whitespace (the shape `collapseWs`
produces). -/
def canonB : List Char → Bool
  | [] => true
  | c :: l =>
    (!isSpacePy c || c = ' ') &&
    (match l with
     | [] => true
     | d :: _ => !(isSpacePy c && isSpacePy d)) &&
    canonB l

/-- `clean_text` from `create_vector_embedding.py`: the seven-stage
normalisation pipeline (empty input is returned unchanged, as by the
`if not text` guard). -/
def clean_text (s : String) : String :=
  if s = "" then ""
  else String.mk (pyStripList (subUnderscores (subPage (subGlyphs
    (collapseWs (subHyphen (subCtrl s.data)))))))

/-! ### `detect_item_and_resolution`

`re.search(r'Item No\.\s*\d+', text, re.IGNORECASE)` returns `group(0)`,
the matched substring in its original casing;
`re.search(r'Resolution with respect to[:\-]?\s*(.+)', text,
re.IGNORECASE)` returns `group(1).strip()`.  Both searches scan left to
right for the first position where the whole pattern matches. -/

/-- Length of a match of `Item No\.\s*\d+` starting exactly here:
the case-insensitive literal, a whitespace run, a non-empty digit run. -/
def itemLenAt (l : List Char) : Option Nat :=
  match matchLit "item no.".data l with
  | none => none
  | some r =>
    let w := r.takeWhile isSpacePy
    let t := r.dropWhile isSpacePy
    let ds := t.takeWhile Char.isDigit
    if ds.isEmpty then none else some (8 + w.length + ds.length)

def searchItemGo : List Char → Option (List Char)
  | [] => none
  | c :: l =>
    match itemLenAt (c :: l) with
    | some n => some ((c :: l).take n)
    | none => searchItemGo l

/-- The group `(.+)` of the resolution pattern, after the optional
`[:\-]?` and the greedy `\s*`, with the backtracking Python's engine
performs: `.` does not match a newline, `\s*` gives characters back to
`.+` when the remainder would otherwise be empty. -/
def resGroupNoSep (r : List Char) : Option (List Char) :=
  let t := r.dropWhile isSpacePy
  if t.isEmpty then
    match ((r.takeWhile isSpacePy).filter (fun c => c ≠ '\n')).getLast? with
    | none => none
    | some c => some [c]
  else some (t.takeWhile (fun c => c ≠ '\n'))

def resGroupAt (r : List Char) : Option (List Char) :=
  match r with
  | [] => none
  | c :: r' =>
    if c = ':' || c = '-' then
      match resGroupNoSep r' with
      | some g => some g
      | none => resGroupNoSep r
    else resGroupNoSep r

def searchResGo : List Char → Option (List Char)
  | [] => none
  | c :: l =>
    match matchLit "resolution with respect to".data (c :: l) with
    | some r =>
      match resGroupAt r with
      | some g => some g
      | none => searchResGo l
    | none => searchResGo l

/-- `detect_item_and_resolution(text)`: the pair
`(item_match.group(0), resolution_match.group(1).strip())`, each `none`
when its search fails.  The resolution label may be the empty string
(a label that strips to nothing), which Python treats as falsy. -/
def detect_item_and_resolution (s : String) : Option String × Option String :=
  ((searchItemGo s.data).map String.mk,
   (searchResGo s.data).map (fun g => String.mk (pyStripList g)))

/-- Python truthiness of an optional string: `None` and `""` are falsy. -/
def pyTruthy : Option String → Bool
  | none => false
  | some s => s ≠ ""

/-! ### `process_docx_by_items` -/

/-- The `Document(page_content=..., metadata=...)` values built by
`store_chunk`. -/
structure Chunk where
  page_content : String
  source : String
  item_no : Option String
  resolution : Option String
deriving DecidableEq, Repr

/-- The mutable state of `process_docx_by_items`: `current_item_no`,
`current_resolution`, `current_text`, and the accumulated `chunks`. -/
structure BState where
  current_item_no : Option String
  current_resolution : Option String
  current_text : List String
  chunks : List Chunk
deriving DecidableEq, Repr

def initState : BState := ⟨none, none, [], []⟩

/-- The `text_block` a flush would produce: joining `current_text` with
newlines and stripping, as in `store_chunk`. -/
def textBlock (buf : List String) : String :=
  String.mk (pyStripList (String.intercalate "\n" buf).data)

/-- `store_chunk()`: if the buffer is non-empty, join and strip it, emit a
chunk when the result reaches `MIN_CHUNK_LENGTH`, and clear the buffer. -/
def store_chunk (file_name : String) (st : BState) : BState :=
  if st.current_text.isEmpty then st
  else
    let tb := textBlock st.current_text
    if MIN_CHUNK_LENGTH ≤ tb.length then
      { st with
        chunks := st.chunks ++ [⟨tb, file_name, st.current_item_no, st.current_resolution⟩],
        current_text := [] }
    else { st with current_text := [] }

/-- One iteration of the paragraph loop of `process_docx_by_items`. -/
def paraStep (file_name : String) (st : BState) (raw : String) : BState :=
  let cleaned := clean_text raw
  if cleaned = "" then st
  else
    let d := detect_item_and_resolution cleaned
    let st :=
      if pyTruthy d.1 then
        let st' := store_chunk file_name st
        { st' with
          current_item_no := d.1,
          current_resolution := if pyTruthy d.2 then d.2 else st'.current_resolution }
      else if pyTruthy d.2 then { st with current_resolution := d.2 }
      else st
    { st with current_text := st.current_text ++ [cleaned] }

/-- The pipe-joined row text: the cleaned cell texts that are non-empty,
joined with `" | "`, as built in the table loop. -/
def rowText (cells : List String) : String :=
  String.intercalate " | " ((cells.map clean_text).filter (fun s => s ≠ ""))

/-- One iteration of the table-row loop: append the flattened row to the
buffer when it is non-empty. -/
def rowStep (st : BState) (cells : List String) : BState :=
  let rt := rowText cells
  if rt = "" then st else { st with current_text := st.current_text ++ [rt] }

/-- `process_docx_by_items`: paragraphs are folded first, then every row
of every table, then the final flush; the chunk list is returned.  The
document is given as its paragraph texts and its tables (lists of rows,
each row a list of cell texts); `file_name` is the `os.path.basename`. -/
def process_docx_by_items (paragraphs : List String)
    (tables : List (List (List String))) (file_name : String) : List Chunk :=
  let st1 := paragraphs.foldl (paraStep file_name) initState
  let st2 := tables.foldl (fun st tbl => tbl.foldl rowStep st) st1
  (store_chunk file_name st2).chunks

/-! ### `store_per_doc_embeddings`

The filesystem and the embedding collaborator are abstracted: a document
is its file name, the chunks `process_docx_by_items` produced for it, and
whether `FAISS.from_documents` succeeds on it; `combinedOk` is whether
building the combined index succeeds.  The result records which
per-document partitions were persisted (`save_local`) and the chunk list
of the combined `db_faiss` partition if it was persisted. -/

structure DocFile where
  name : String
  chunks : List Chunk
  embedOk : Bool
deriving DecidableEq, Repr

structure IndexerResult where
  saved : List (String × List Chunk)
  combined : Option (List Chunk)
deriving DecidableEq, Repr

/-- `f.lower().endswith('.docx')`. -/
def lowerEndsWithDocx (s : String) : Bool :=
  ".docx".data.isSuffixOf (s.data.map Char.toLower)

/-- `os.path.splitext(file)[0]` for a bare file name: strip the suffix
from the last dot, unless every character before that dot is a dot. -/
def splitextBase (s : String) : String :=
  match s.data.reverse.dropWhile (fun c => c ≠ '.') with
  | [] => s
  | _ :: pre =>
    if pre.any (fun c => c ≠ '.') then String.mk pre.reverse
    else s

/-- The loop body of `store_per_doc_embeddings` over one file: chunks are
appended to `all_chunks` *before* the `try: FAISS.from_documents`, so a
file whose embedding fails still contributes to `all_chunks` while its
per-document index is never saved. -/
def indexFileStep (acc : List Chunk × List (String × List Chunk)) (f : DocFile) :
    List Chunk × List (String × List Chunk) :=
  if f.chunks.isEmpty then acc
  else
    let all := acc.1 ++ f.chunks
    if f.embedOk then (all, acc.2 ++ [(splitextBase f.name, f.chunks)])
    else (all, acc.2)

/-- `store_per_doc_embeddings()`: filter to `.docx` files, process each
(per-document partitions), then persist the combined `db_faiss` partition
from `all_chunks` when it is non-empty and the combined build succeeds. -/
def store_per_doc_embeddings (files : List DocFile) (combinedOk : Bool) : IndexerResult :=
  let docx := files.filter (fun f => lowerEndsWithDocx f.name)
  if docx.isEmpty then ⟨[], none⟩
  else
    let acc := docx.foldl indexFileStep ([], [])
    ⟨acc.2, if !acc.1.isEmpty && combinedOk then some acc.1 else none⟩

/-! ## `rag_query_handler.py` -/

/-! ### `_extract_bog_folders_from_query`

`re.findall(r"\bBoG\s*(\d{1,3})\b", query, re.IGNORECASE)` and
`re.findall(r"\b(20\d{2})\b", query)` are scanners over the query; the
per-folder `re.search(r'(\d{1,3})')` and `re.search(r'(20\d{2})')` give
each folder its code key and year key.  The Python `set` accumulated by
`detected.update(...)` is modelled as a list in first-insertion order. -/

/-- A match of `BoG\s*(\d{1,3})\b` starting here (the `\b` before `B` is
checked by the scanner): the digit run after the whitespace must be
non-empty, at most 3 long (a fourth digit would defeat the greedy
`\d{1,3}\b` through every backtrack), and followed by a non-word
character or the end. -/
def bogAt (l : List Char) : Option (List Char × Nat) :=
  match matchLit "bog".data l with
  | none => none
  | some r =>
    let w := r.takeWhile isSpacePy
    let t := r.dropWhile isSpacePy
    let ds := t.takeWhile Char.isDigit
    let rest := t.dropWhile Char.isDigit
    if !ds.isEmpty && ds.length ≤ 3 && (match rest.head? with
        | none => true
        | some c => !isWordPy c) then
      some (ds, 3 + w.length + ds.length)
    else none

def fbGo : Bool ⊕ Nat → List Char → List (List Char)
  | _, [] => []
  | .inl prevW, c :: l =>
    if prevW then fbGo (.inl (isWordPy c)) l
    else
      match bogAt (c :: l) with
      | some (ds, n) =>
        if n ≤ 1 then ds :: fbGo (.inl true) l else ds :: fbGo (.inr (n - 1)) l
      | none => fbGo (.inl (isWordPy c)) l
  | .inr k, _ :: l => if k ≤ 1 then fbGo (.inl true) l else fbGo (.inr (k - 1)) l

/-- `re.findall(r"\bBoG\s*(\d{1,3})\b", query, re.IGNORECASE)`. -/
def findBogMentions (q : String) : List String :=
  (fbGo (.inl false) q.data).map String.mk

/-- A match of `(20\d{2})\b` starting here. -/
def yearAt (l : List Char) : Option (List Char) :=
  match l with
  | '2' :: '0' :: a :: b :: rest =>
    if a.isDigit && b.isDigit && (match rest.head? with
        | none => true
        | some c => !isWordPy c) then
      some ['2', '0', a, b]
    else none
  | _ => none

def fyGo : Bool ⊕ Nat → List Char → List (List Char)
  | _, [] => []
  | .inl prevW, c :: l =>
    if prevW then fyGo (.inl (isWordPy c)) l
    else
      match yearAt (c :: l) with
      | some ys => ys :: fyGo (.inr 3) l
      | none => fyGo (.inl (isWordPy c)) l
  | .inr k, _ :: l => if k ≤ 1 then fyGo (.inl true) l else fyGo (.inr (k - 1)) l

/-- `re.findall(r"\b(20\d{2})\b", query)`. -/
def findYearMentions (q : String) : List String :=
  (fyGo (.inl false) q.data).map String.mk

/-- `re.search(r'(\d{1,3})', folder)`: the first digit run, capped at
three digits (no word boundaries in this pattern). -/
def bogKey : List Char → Option (List Char)
  | [] => none
  | c :: l =>
    if c.isDigit then some (c :: (l.takeWhile Char.isDigit).take 2)
    else bogKey l

/-- `re.search(r'(20\d{2})', folder)`: the first `20dd` substring (no word
boundaries in this pattern). -/
def yearKeyAt (l : List Char) : Option (List Char) :=
  match l with
  | '2' :: '0' :: a :: b :: _ =>
    if a.isDigit && b.isDigit then some ['2', '0', a, b] else none
  | _ => none

def yearKey : List Char → Option (List Char)
  | [] => none
  | c :: l =>
    match yearKeyAt (c :: l) with
    | some ys => some ys
    | none => yearKey l

def folderBogKey (folder : String) : Option String := (bogKey folder.data).map String.mk

def folderYearKey (folder : String) : Option String := (yearKey folder.data).map String.mk

/-- Insert into a list acting as a set in first-insertion order. -/
def dedupIns (acc : List String) (x : String) : List String :=
  if x ∈ acc then acc else acc ++ [x]

/-- `detected.update(folders)` for a Python set modelled in insertion
order. -/
def setUpdate (acc : List String) (xs : List String) : List String :=
  xs.foldl dedupIns acc

/-- The error message of the `NoIdentifierFound` `ValueError`. -/
def noIdentifierMsg : String :=
  "[❌] No BoG number or year found in the query. Please mention something like 'BoG 54' or '2021'."

/-- The error message of the `NoMatchingPartition` `ValueError`. -/
def noMatchingMsg : String := "[❌] No matching folders detected in the query."

/-- The union of partitions collected by the two `for` loops of
`_extract_bog_folders_from_query` (`folder_map_by_bog[bog_num]` is the
folders whose first digit run equals `bog_num`, in folder order, and
similarly for years; an absent key only prints a warning). -/
def detectedFolders (q : String) (folder_names : List String) : List String :=
  (findYearMentions q).foldl
    (fun acc y => setUpdate acc (folder_names.filter (fun f => folderYearKey f = some y)))
    ((findBogMentions q).foldl
      (fun acc code =>
        setUpdate acc (folder_names.filter (fun f => folderBogKey f = some code))) [])

/-- `_extract_bog_folders_from_query(query)` over the registry keys
`folder_names`; `ValueError`s are modelled as `Except.error` carrying the
exception's message. -/
def extract_bog_folders (q : String) (folder_names : List String) :
    Except String (List String) :=
  if (findBogMentions q).isEmpty && (findYearMentions q).isEmpty then
    .error noIdentifierMsg
  else if (detectedFolders q folder_names).isEmpty then .error noMatchingMsg
  else .ok (detectedFolders q folder_names)

/-! ### `_query_together_ai` and `_query_with_context`

The `requests.post` call is an external collaborator: its outcome is
either the extracted `choices[0].message.content` of a well-formed 2xx
response, or any raised exception `e` (timeout, connection error,
`raise_for_status`, missing JSON fields), which the `except` branch turns
into the string concatenating "System error: " and the exception text. -/

inductive NetOutcome where
  | success (content : String)
  | failure (errText : String)
deriving DecidableEq, Repr

/-- The fixed parameters of the `requests.post` call in
`_query_together_ai` that the claims mention. -/
structure RequestSpec where
  url : String
  timeoutSeconds : Option Nat
deriving DecidableEq, Repr

def togetherRequest : RequestSpec :=
  { url := "https://api.together.ai/v1/chat/completions", timeoutSeconds := some 30 }

/-- Python `str.startswith`. -/
def pyStartswith (s pre : String) : Bool := pre.data.isPrefixOf s.data

def systemErrorMarker : String := "System error:"

/-- `_query_together_ai(messages)`. -/
def query_together_ai (net : NetOutcome) : String :=
  match net with
  | .success c => c
  | .failure e => "System error: " ++ e

/-- `_query_with_context(query, context)`: empty responses become a local
error string, marker-prefixed responses are returned verbatim, all other
responses are returned as-is.  The messages built around `query` and
`context` only feed the black-box call, whose outcome is `net`. -/
def query_with_context (_query _context : String) (net : NetOutcome) : String :=
  let response := query_together_ai net
  if response = "" then "[Error] No response from Together AI."
  else if pyStartswith response systemErrorMarker then response
  else response

/-! ### `handle_input` -/

/-- The process state a single `handle_input` call runs against: the
vector-store registry as rebuilt by `_load_all_vector_stores` (an
association of partition name to its retriever, i.e. the ranked
`page_content` lists `as_retriever(...).get_relevant_documents(query)`
would return, with `top_k` already applied), and the outcome of the one
upstream synthesis call. -/
structure Env where
  stores : List (String × (String → List String))
  net : NetOutcome

def lookupStore : List (String × (String → List String)) → String →
    Option (String → List String)
  | [], _ => none
  | (k, v) :: rest, key => if k = key then some v else lookupStore rest key

/-- A lookup `self.vector_stores[store_key]` on a missing key would raise
an uncaught `KeyError`; `handle_input`'s result is therefore an `Except`
whose error case is that exception. -/
def keyErrorMsg : String := "KeyError: store_key not in vector_stores"

/-- The retrieval loop of `handle_input`: for each selected store, fetch
its documents and keep each text not yet in `seen`. -/
def retrieveLoop (env : Env) (q : String) :
    List String → List String → List String → Except String (List String)
  | [], all_docs, _ => .ok all_docs
  | key :: rest, all_docs, seen =>
    match lookupStore env.stores key with
    | none => .error keyErrorMsg
    | some retr =>
      let p := (retr q).foldl
        (fun (p : List String × List String) d =>
          if d ∈ p.2 then p else (p.1 ++ [d], p.2 ++ [d]))
        (all_docs, seen)
      retrieveLoop env q rest p.1 p.2

def noContextMsg : String := "[⚠️] No relevant context found in the specified folders."

/-- `handle_input(query)`: reload the registry (modelled by reading
`env.stores`), select partitions (a `ValueError` is caught and its
message returned), retrieve and deduplicate, join the context with blank
lines, and either report absent evidence or synthesize. -/
def handle_input (env : Env) (q : String) : Except String String :=
  match extract_bog_folders q (env.stores.map Prod.fst) with
  | .error ve => .ok ve
  | .ok store_keys =>
    match retrieveLoop env q store_keys [] [] with
    | .error e => .error e
    | .ok all_docs =>
      let combined_context := String.intercalate "\n\n" all_docs
      if (pyStripList combined_context.data).isEmpty then .ok noContextMsg
      else .ok (query_with_context q combined_context env.net)

/-- Specification-side first-occurrence deduplication: keep each text's
first occurrence, in encounter order. -/
def firstDedup (l : List String) : List String :=
  l.foldl dedupIns []

/-- The buffer line a table row contributes, if any. -/
def rowOpt (cells : List String) : Option String :=
  if rowText cells = "" then none else some (rowText cells)

/-- The documents a selected store returns for the query (total: the
hypothesis of the aggregation theorem rules the `none` case out). -/
def retrDocs (env : Env) (q : String) (k : String) : List String :=
  match lookupStore env.stores k with
  | some f => f q
  | none => []

/-! ### Concrete inputs used by witnesses and counterexamples -/

/-- A 120-character paragraph (`clean_text` leaves it unchanged). -/
def c4Doc : String := String.mk (List.replicate 120 'a')

/-- A registry with two partitions whose retrievals share a chunk text. -/
def c7Env : Env :=
  ⟨[("A", fun _ => ["dup", "a1"]), ("B", fun _ => ["dup", "b1"])], .success "ans"⟩

def c1Chunk : Chunk := ⟨"Resolution text", "a.docx", none, none⟩

/-- A document whose embedding/indexing fails. -/
def c1FailFile : DocFile := ⟨"a.docx", [c1Chunk], false⟩

/-- The same document with a successful embedding. -/
def c1OkFile : DocFile := ⟨"a.docx", [c1Chunk], true⟩

/-! ## Helper lemmas -/

theorem isPrefixOf_append_self (l r : List Char) : l.isPrefixOf (l ++ r) = true := by
  induction l with
  | nil => simp [List.isPrefixOf]
  | cons c cs ih => simp [List.isPrefixOf, ih]

/-- `store_chunk` in closed form: the buffer is always cleared, the
metadata is unchanged, and a chunk is appended exactly when the joined,
stripped buffer reaches `MIN_CHUNK_LENGTH`. -/
theorem store_chunk_eq (fn : String) (st : BState) :
    store_chunk fn st =
      { current_item_no := st.current_item_no,
        current_resolution := st.current_resolution,
        current_text := [],
        chunks := st.chunks ++
          (if MIN_CHUNK_LENGTH ≤ (textBlock st.current_text).length then
            [⟨textBlock st.current_text, fn, st.current_item_no, st.current_resolution⟩]
           else []) } := by
  rcases st with ⟨a, b, buf, ch⟩
  cases buf with
  | nil =>
    have hlen : (textBlock []).length = 0 := by decide
    simp [store_chunk, hlen, MIN_CHUNK_LENGTH]
  | cons s rest =>
    simp only [store_chunk, textBlock, List.isEmpty_cons, Bool.false_eq_true, if_false]
    split <;> simp

/-- All chunks of a list reach the minimum length. -/
def minOk (l : List Chunk) : Prop := ∀ c ∈ l, MIN_CHUNK_LENGTH ≤ c.page_content.length

theorem minOk_store_chunk (fn : String) (st : BState) (h : minOk st.chunks) :
    minOk (store_chunk fn st).chunks := by
  rw [store_chunk_eq]
  intro c hc
  simp only [List.mem_append] at hc
  rcases hc with hc | hc
  · exact h c hc
  · split at hc
    · rename_i hlen
      simp only [List.mem_singleton] at hc
      subst hc
      exact hlen
    · simp at hc

/-- A paragraph step either keeps the chunk list or flushes it. -/
theorem paraStep_chunks (fn : String) (st : BState) (raw : String) :
    (paraStep fn st raw).chunks = st.chunks ∨
    (paraStep fn st raw).chunks = (store_chunk fn st).chunks := by
  unfold paraStep
  by_cases h1 : clean_text raw = ""
  · left; rw [if_pos h1]
  · rw [if_neg h1]
    by_cases h2 : pyTruthy (detect_item_and_resolution (clean_text raw)).1
    · right; simp [h2]
    · left
      by_cases h3 : pyTruthy (detect_item_and_resolution (clean_text raw)).2 <;>
        simp [h2, h3]

theorem minOk_paraStep (fn : String) (st : BState) (raw : String) (h : minOk st.chunks) :
    minOk (paraStep fn st raw).chunks := by
  rcases paraStep_chunks fn st raw with hc | hc <;> rw [hc]
  · exact h
  · exact minOk_store_chunk fn st h

theorem minOk_rowStep (st : BState) (cells : List String) (h : minOk st.chunks) :
    minOk (rowStep st cells).chunks := by
  by_cases hr : rowText cells = "" <;> simpa [rowStep, hr] using h

theorem minOk_foldl {α : Type} (f : BState → α → BState)
    (hf : ∀ st a, minOk st.chunks → minOk (f st a).chunks) :
    ∀ (l : List α) (st : BState), minOk st.chunks → minOk (l.foldl f st).chunks := by
  intro l
  induction l with
  | nil => intro st h; exact h
  | cons a l ih => intro st h; exact ih (f st a) (hf st a h)

end BogChat

open BogChat

/-- C9.  Any failure of the synthesizer call (whose request carries a
fixed 30-second timeout) becomes the string with the reserved
"System error:" marker, and `_query_with_context` returns that marker
string verbatim to its caller. -/
theorem C9_upstream_failure_marker (e q ctx : String) :
    query_together_ai (.failure e) = "System error: " ++ e ∧
    pyStartswith (query_together_ai (.failure e)) systemErrorMarker = true ∧
    query_with_context q ctx (.failure e) = query_together_ai (.failure e) ∧
    togetherRequest.timeoutSeconds = some 30 := by
  have hdata : ("System error: " ++ e).data = systemErrorMarker.data ++ (' ' :: e.data) := by
    have h1 : ("System error: " ++ e).data = "System error: ".data ++ e.data := rfl
    have h2 : "System error: ".data = systemErrorMarker.data ++ [' '] := by decide
    rw [h1, h2, List.append_assoc]
    rfl
  have hpre : pyStartswith ("System error: " ++ e) systemErrorMarker = true := by
    unfold pyStartswith
    rw [hdata]
    exact isPrefixOf_append_self _ _
  refine ⟨rfl, hpre, ?_, rfl⟩
  show query_with_context q ctx (.failure e) = "System error: " ++ e
  have hne : ¬ ("System error: " ++ e = "") := by
    intro hcontra
    have : ("System error: " ++ e).data = [] := by rw [hcontra]
    rw [hdata] at this
    simp at this
  simp [query_with_context, query_together_ai, hne, hpre]

/-- C9 witness at a concrete failure. -/
theorem C9_witness :
    query_with_context "q" "ctx" (.failure "timeout") =
      query_together_ai (.failure "timeout") :=
  (C9_upstream_failure_marker "timeout" "q" "ctx").2.2.1

/-- C4.  Every flush clears the buffer and emits a chunk exactly when the
joined, trimmed buffer reaches `MIN_CHUNK_LENGTH`; consequently every
chunk `process_docx_by_items` outputs has text of length at least 100. -/
theorem C4_flush_rule :
    (∀ (fn : String) (st : BState),
        (store_chunk fn st).current_text = [] ∧
        (store_chunk fn st).chunks = st.chunks ++
          (if MIN_CHUNK_LENGTH ≤ (textBlock st.current_text).length then
            [⟨textBlock st.current_text, fn, st.current_item_no, st.current_resolution⟩]
           else [])) ∧
    (∀ (paragraphs : List String) (tables : List (List (List String))) (fn : String),
        ∀ c ∈ process_docx_by_items paragraphs tables fn,
          MIN_CHUNK_LENGTH ≤ c.page_content.length) := by
  constructor
  · intro fn st
    rw [store_chunk_eq]
    exact ⟨rfl, rfl⟩
  · intro paragraphs tables fn c hc
    unfold process_docx_by_items at hc
    have h0 : minOk initState.chunks := by intro c hc; simp [initState] at hc
    have h1 : minOk ((paragraphs.foldl (paraStep fn) initState)).chunks :=
      minOk_foldl _ (fun st a => minOk_paraStep fn st a) paragraphs initState h0
    have h2 : minOk ((tables.foldl (fun st tbl => tbl.foldl rowStep st)
        (paragraphs.foldl (paraStep fn) initState)).chunks) :=
      minOk_foldl _ (fun st tbl h => minOk_foldl _ minOk_rowStep tbl st h) tables _ h1
    exact minOk_store_chunk fn _ h2 c hc

set_option maxRecDepth 20000 in
/-- C4 witness: a single long paragraph yields its chunk, whose length
the theorem bounds. -/
theorem C4_witness : MIN_CHUNK_LENGTH ≤ (Chunk.mk c4Doc "a.docx" none none).page_content.length :=
  C4_flush_rule.2 [c4Doc] [] "a.docx" (Chunk.mk c4Doc "a.docx" none none) (by decide)

/-- The row loop over one table only appends the non-empty flattened rows
to the buffer. -/
theorem rowFold_eq (rows : List (List String)) (st : BState) :
    rows.foldl rowStep st =
      { st with current_text := st.current_text ++ rows.filterMap rowOpt } := by
  induction rows generalizing st with
  | nil => simp
  | cons r rs ih =>
    rw [List.foldl_cons, ih]
    unfold rowStep rowOpt
    by_cases hr : rowText r = "" <;> simp [hr]

/-- The table loop of `process_docx_by_items` in closed form. -/
theorem tableFold_eq (tables : List (List (List String))) (st : BState) :
    tables.foldl (fun st tbl => tbl.foldl rowStep st) st =
      { st with current_text := st.current_text ++ tables.flatten.filterMap rowOpt } := by
  induction tables generalizing st with
  | nil => simp
  | cons t ts ih =>
    rw [List.foldl_cons, ih, rowFold_eq]
    simp

/-- C8.  All table rows are processed after every paragraph: the table
phase never flushes, never changes the carried metadata, and only appends
the non-empty pipe-joined rows to the still-open trailing buffer, which
the final flush then emits. -/
theorem C8_tables_attach :
    (∀ (st : BState) (tables : List (List (List String))),
        tables.foldl (fun st tbl => tbl.foldl rowStep st) st =
          { st with current_text := st.current_text ++ tables.flatten.filterMap rowOpt }) ∧
    (∀ (paragraphs : List String) (tables : List (List (List String))) (fn : String),
        process_docx_by_items paragraphs tables fn =
          (store_chunk fn
            { paragraphs.foldl (paraStep fn) initState with
              current_text := (paragraphs.foldl (paraStep fn) initState).current_text
                ++ tables.flatten.filterMap rowOpt }).chunks) := by
  refine ⟨fun st tables => tableFold_eq tables st, fun paragraphs tables fn => ?_⟩
  simp only [process_docx_by_items, tableFold_eq]

/-- C3.  One paragraph step: a detected item identifier flushes the
buffer into a chunk tagged with the metadata current *before* the unit,
then installs the new identifier and, when truthy, the new label
(otherwise the carried-forward label); a label alone only updates the
label without flushing; the cleaned unit text is appended in every
case. -/
theorem C3_item_boundary_step (fn : String) (st : BState) (raw : String)
    (hne : clean_text raw ≠ "") :
    (pyTruthy (detect_item_and_resolution (clean_text raw)).1 = true →
       paraStep fn st raw =
         { current_item_no := (detect_item_and_resolution (clean_text raw)).1,
           current_resolution :=
             if pyTruthy (detect_item_and_resolution (clean_text raw)).2 = true then
               (detect_item_and_resolution (clean_text raw)).2
             else st.current_resolution,
           current_text := [clean_text raw],
           chunks := st.chunks ++
             (if MIN_CHUNK_LENGTH ≤ (textBlock st.current_text).length then
               [⟨textBlock st.current_text, fn, st.current_item_no, st.current_resolution⟩]
              else []) }) ∧
    (pyTruthy (detect_item_and_resolution (clean_text raw)).1 = false →
     pyTruthy (detect_item_and_resolution (clean_text raw)).2 = true →
       paraStep fn st raw =
         { st with current_resolution := (detect_item_and_resolution (clean_text raw)).2,
                   current_text := st.current_text ++ [clean_text raw] }) ∧
    (pyTruthy (detect_item_and_resolution (clean_text raw)).1 = false →
     pyTruthy (detect_item_and_resolution (clean_text raw)).2 = false →
       paraStep fn st raw = { st with current_text := st.current_text ++ [clean_text raw] }) := by
  refine ⟨?_, ?_, ?_⟩
  · intro h1
    simp [paraStep, hne, h1, store_chunk_eq]
  · intro h1 h2
    simp [paraStep, hne, h1, h2]
  · intro h1 h2
    simp [paraStep, hne, h1, h2]

/-- C3 witness: an item-bearing unit applied to the initial state. -/
theorem C3_witness :
    paraStep "f.docx" initState "Item No. 2 Resolution with respect to: Fees" =
      { current_item_no := some "Item No. 2",
        current_resolution := some "Fees",
        current_text := ["Item No. 2 Resolution with respect to: Fees"],
        chunks := [] } := by
  have h := (C3_item_boundary_step "f.docx" initState
    "Item No. 2 Resolution with respect to: Fees" (by decide)).1 (by decide)
  rw [h]
  decide

/-- The loop of `store_per_doc_embeddings` keeps `all_chunks` equal to
the concatenation of the saved partitions, provided no embedding fails. -/
theorem indexFold_inv :
    ∀ (files : List DocFile), (∀ f ∈ files, f.embedOk = true) →
      ∀ acc : List Chunk × List (String × List Chunk),
        acc.1 = (acc.2.map Prod.snd).flatten →
        (files.foldl indexFileStep acc).1 =
          (((files.foldl indexFileStep acc).2).map Prod.snd).flatten := by
  intro files
  induction files with
  | nil => intro _ acc h; exact h
  | cons f fs ih =>
    intro hok acc h
    have hf : f.embedOk = true := hok f (by simp)
    have hfs : ∀ g ∈ fs, g.embedOk = true := fun g hg => hok g (by simp [hg])
    rw [List.foldl_cons]
    refine ih hfs (indexFileStep acc f) ?_
    unfold indexFileStep
    by_cases hc : f.chunks.isEmpty
    · simpa [hc] using h
    · simp [hc, hf, h]

/-- C1 counterexample: one `.docx` file whose embedding fails — its chunk
reaches the combined `db_faiss` partition while no per-document partition
was persisted at all. -/
theorem C1_counterexample :
    (store_per_doc_embeddings [c1FailFile] true).combined = some [c1Chunk] ∧
    (store_per_doc_embeddings [c1FailFile] true).saved = [] ∧
    ¬ ∃ p ∈ (store_per_doc_embeddings [c1FailFile] true).saved, c1Chunk ∈ p.2 := by
  decide

/-- C1 (amended).  When every document's embedding/indexing succeeds, the
combined partition is exactly the in-order concatenation of the persisted
per-document partitions, so each of its chunks lies in a persisted
per-document partition. -/
theorem C1_amended (files : List DocFile) (combinedOk : Bool)
    (hok : ∀ f ∈ files, f.embedOk = true) (L : List Chunk)
    (hL : (store_per_doc_embeddings files combinedOk).combined = some L) :
    L = (((store_per_doc_embeddings files combinedOk).saved).map Prod.snd).flatten ∧
    ∀ ch ∈ L, ∃ p ∈ (store_per_doc_embeddings files combinedOk).saved, ch ∈ p.2 := by
  have hdok : ∀ f ∈ files.filter (fun f => lowerEndsWithDocx f.name), f.embedOk = true := by
    intro f hf
    exact hok f (List.mem_of_mem_filter hf)
  unfold store_per_doc_embeddings at hL ⊢
  by_cases hd : (files.filter (fun f => lowerEndsWithDocx f.name)).isEmpty
  · rw [if_pos hd] at hL
    simp at hL
  · rw [if_neg hd] at hL ⊢
    have hinv := indexFold_inv _ hdok ([], []) rfl
    simp only at hL ⊢
    split at hL
    · have hL2 : ((files.filter (fun f => lowerEndsWithDocx f.name)).foldl
          indexFileStep ([], [])).1 = L := by
        injection hL
      constructor
      · rw [← hL2]
        exact hinv
      · intro ch hch
        rw [← hL2, hinv] at hch
        rcases List.mem_flatten.1 hch with ⟨l, hl, hchl⟩
        rcases List.mem_map.1 hl with ⟨p, hp, rfl⟩
        exact ⟨p, hp, hchl⟩
    · exact absurd hL (by simp)

/-- C1 amended witness: a single successfully embedded document. -/
theorem C1_amended_witness :
    [c1Chunk] =
      (((store_per_doc_embeddings [c1OkFile] true).saved).map Prod.snd).flatten :=
  (C1_amended [c1OkFile] true (by decide) [c1Chunk] (by decide)).1

/-! ## Selector and aggregator lemmas -/

theorem mem_setUpdate (x : String) (xs acc : List String) :
    x ∈ setUpdate acc xs ↔ x ∈ acc ∨ x ∈ xs := by
  induction xs generalizing acc with
  | nil => simp [setUpdate]
  | cons a as ih =>
    show x ∈ setUpdate (dedupIns acc a) as ↔ _
    rw [ih]
    by_cases h : a ∈ acc
    · rw [dedupIns, if_pos h]
      constructor
      · rintro (hx | hx)
        · exact .inl hx
        · exact .inr (List.mem_cons_of_mem a hx)
      · rintro (hx | hx)
        · exact .inl hx
        · rcases List.mem_cons.1 hx with rfl | hx
          · exact .inl h
          · exact .inr hx
    · rw [dedupIns, if_neg h]
      simp [List.mem_append, List.mem_cons, or_assoc]

theorem nodup_setUpdate (xs acc : List String) (h : acc.Nodup) :
    (setUpdate acc xs).Nodup := by
  induction xs generalizing acc with
  | nil => exact h
  | cons a as ih =>
    show (setUpdate (dedupIns acc a) as).Nodup
    refine ih _ ?_
    by_cases ha : a ∈ acc
    · rwa [dedupIns, if_pos ha]
    · rw [dedupIns, if_neg ha, ← List.concat_eq_append]
      exact h.concat ha

theorem mem_foldl_setUpdate {α : Type} (g : α → List String) (l : List α)
    (init : List String) (x : String) :
    x ∈ l.foldl (fun acc a => setUpdate acc (g a)) init ↔
      x ∈ init ∨ ∃ a ∈ l, x ∈ g a := by
  induction l generalizing init with
  | nil => simp
  | cons a as ih =>
    rw [List.foldl_cons, ih, mem_setUpdate]
    simp [or_assoc]

theorem nodup_foldl_setUpdate {α : Type} (g : α → List String) (l : List α)
    (init : List String) (h : init.Nodup) :
    (l.foldl (fun acc a => setUpdate acc (g a)) init).Nodup := by
  induction l generalizing init with
  | nil => exact h
  | cons a as ih => exact ih _ (nodup_setUpdate _ _ h)

theorem mem_detectedFolders (q : String) (names : List String) (f : String) :
    f ∈ detectedFolders q names ↔
      f ∈ names ∧ ((∃ code ∈ findBogMentions q, folderBogKey f = some code) ∨
                   (∃ y ∈ findYearMentions q, folderYearKey f = some y)) := by
  unfold detectedFolders
  rw [mem_foldl_setUpdate, mem_foldl_setUpdate]
  simp only [List.not_mem_nil, false_or, List.mem_filter, decide_eq_true_eq]
  constructor
  · rintro (⟨code, hc, hf, hk⟩ | ⟨y, hy, hf, hk⟩)
    · exact ⟨hf, .inl ⟨code, hc, hk⟩⟩
    · exact ⟨hf, .inr ⟨y, hy, hk⟩⟩
  · rintro ⟨hf, ⟨code, hc, hk⟩ | ⟨y, hy, hk⟩⟩
    · exact .inl ⟨code, hc, hf, hk⟩
    · exact .inr ⟨y, hy, hf, hk⟩

theorem nodup_detectedFolders (q : String) (names : List String) :
    (detectedFolders q names).Nodup := by
  unfold detectedFolders
  exact nodup_foldl_setUpdate _ _ _ (nodup_foldl_setUpdate _ _ _ List.nodup_nil)

/-- On success, the selector returns exactly `detectedFolders`. -/
theorem extract_ok_eq (q : String) (names res : List String)
    (h : extract_bog_folders q names = .ok res) : res = detectedFolders q names := by
  unfold extract_bog_folders at h
  split at h
  · exact absurd h (by simp)
  · split at h
    · exact absurd h (by simp)
    · exact (Except.ok.injEq _ _ ▸ h).symm

/-- Every partition name the selector returns is a registry key. -/
theorem extract_ok_sub (q : String) (names res : List String)
    (h : extract_bog_folders q names = .ok res) : ∀ f ∈ res, f ∈ names := by
  intro f hf
  rw [extract_ok_eq q names res h] at hf
  exact ((mem_detectedFolders q names f).1 hf).1

theorem lookupStore_of_mem (stores : List (String × (String → List String)))
    (key : String) (h : key ∈ stores.map Prod.fst) :
    ∃ f, lookupStore stores key = some f := by
  induction stores with
  | nil => simp at h
  | cons p rest ih =>
    rcases p with ⟨k, v⟩
    by_cases hk : k = key
    · exact ⟨v, by simp [lookupStore, hk]⟩
    · have : key ∈ rest.map Prod.fst := by
        rcases List.mem_cons.1 h with h1 | h1
        · exact absurd h1.symm hk
        · exact h1
      obtain ⟨f, hf⟩ := ih this
      exact ⟨f, by simp [lookupStore, hk, hf]⟩

/-- The tandem fold of `(all_docs, seen)` is `dedupIns` run on both
components. -/
theorem pairFold_eq (docs : List String) (a : List String) :
    docs.foldl (fun (p : List String × List String) d =>
        if d ∈ p.2 then p else (p.1 ++ [d], p.2 ++ [d])) (a, a) =
      (docs.foldl dedupIns a, docs.foldl dedupIns a) := by
  induction docs generalizing a with
  | nil => rfl
  | cons d ds ih =>
    rw [List.foldl_cons, List.foldl_cons]
    by_cases h : d ∈ a <;> simp only [h, if_pos, if_neg, not_false_iff, dedupIns,
      if_true, if_false] <;> exact ih _

/-- The retrieval loop, when every key resolves, deduplicates the
partition-ordered stream of retrieved texts in first-occurrence order. -/
theorem retrieveLoop_eq (env : Env) (q : String) :
    ∀ (keys : List String) (a : List String),
      (∀ k ∈ keys, k ∈ env.stores.map Prod.fst) →
      retrieveLoop env q keys a a =
        .ok (((keys.map (retrDocs env q)).flatten).foldl dedupIns a) := by
  intro keys
  induction keys with
  | nil => intro a _; simp [retrieveLoop]
  | cons k ks ih =>
    intro a hsub
    obtain ⟨f, hf⟩ := lookupStore_of_mem env.stores k (hsub k (by simp))
    have hret : retrDocs env q k = f q := by simp [retrDocs, hf]
    show (match lookupStore env.stores k with
      | none => Except.error keyErrorMsg
      | some retr =>
        let p := (retr q).foldl
          (fun (p : List String × List String) d =>
            if d ∈ p.2 then p else (p.1 ++ [d], p.2 ++ [d])) (a, a)
        retrieveLoop env q ks p.1 p.2) = _
    rw [hf]
    simp only [pairFold_eq]
    rw [ih _ (fun k hk => hsub k (List.mem_cons_of_mem _ hk))]
    rw [List.map_cons, List.flatten_cons, List.foldl_append, hret]

theorem foldl_dedupIns_sublist (l : List String) :
    ∀ a, ∃ t, l.foldl dedupIns a = a ++ t ∧ t.Sublist l := by
  induction l with
  | nil => exact fun a => ⟨[], by simp, List.nil_sublist []⟩
  | cons d ds ih =>
    intro a
    by_cases hd : d ∈ a
    · obtain ⟨t, ht, hs⟩ := ih a
      exact ⟨t, by simpa [dedupIns, hd] using ht, hs.cons d⟩
    · obtain ⟨t, ht, hs⟩ := ih (a ++ [d])
      refine ⟨d :: t, ?_, hs.cons₂ d⟩
      rw [List.foldl_cons, dedupIns, if_neg hd, ht, List.append_assoc]
      rfl

theorem nodup_foldl_dedupIns (l : List String) :
    ∀ a, a.Nodup → (l.foldl dedupIns a).Nodup := by
  induction l with
  | nil => exact fun a h => h
  | cons d ds ih =>
    intro a h
    rw [List.foldl_cons]
    refine ih _ ?_
    by_cases hd : d ∈ a
    · rwa [dedupIns, if_pos hd]
    · rw [dedupIns, if_neg hd, ← List.concat_eq_append]
      exact h.concat hd

/-- C5.  "BoG 54" against `{BoG54_2021, BoG60_2022}` selects exactly
`{BoG54_2021}`; "BoG 54" plus "2022" selects the union of both; and in
general the selector returns the deduplicated union, over every extracted
code and year, of the partitions keyed to that code or year. -/
theorem C5_selector_union :
    extract_bog_folders "BoG 54" ["BoG54_2021", "BoG60_2022"] = .ok ["BoG54_2021"] ∧
    extract_bog_folders "BoG 54 2022" ["BoG54_2021", "BoG60_2022"] =
      .ok ["BoG54_2021", "BoG60_2022"] ∧
    (∀ (q : String) (names res : List String),
        extract_bog_folders q names = .ok res →
          res.Nodup ∧ ∀ f, (f ∈ res ↔ f ∈ names ∧
            ((∃ code ∈ findBogMentions q, folderBogKey f = some code) ∨
             (∃ y ∈ findYearMentions q, folderYearKey f = some y)))) := by
  refine ⟨by decide, by decide, ?_⟩
  intro q names res h
  rw [extract_ok_eq q names res h]
  exact ⟨nodup_detectedFolders q names, fun f => mem_detectedFolders q names f⟩

/-- C5 witness at the first concrete selection. -/
theorem C5_witness : (["BoG54_2021"] : List String).Nodup :=
  (C5_selector_union.2.2 "BoG 54" ["BoG54_2021", "BoG60_2022"] ["BoG54_2021"]
    (by decide)).1

/-- C6.  The selector fails with the `NoIdentifierFound` message exactly
when neither pattern matched, with the `NoMatchingPartition` message
exactly when something matched but the union of partitions is empty, and
`handle_input` catches either failure and returns the message as a plain
string. -/
theorem C6_selector_failures :
    (∀ (q : String) (names : List String),
        extract_bog_folders q names = .error noIdentifierMsg ↔
          findBogMentions q = [] ∧ findYearMentions q = []) ∧
    (∀ (q : String) (names : List String),
        extract_bog_folders q names = .error noMatchingMsg ↔
          ¬(findBogMentions q = [] ∧ findYearMentions q = []) ∧
          detectedFolders q names = []) ∧
    (∀ (env : Env) (q msg : String),
        extract_bog_folders q (env.stores.map Prod.fst) = .error msg →
          handle_input env q = .ok msg) := by
  have hne : noIdentifierMsg ≠ noMatchingMsg := by decide
  refine ⟨?_, ?_, ?_⟩
  · intro q names
    unfold extract_bog_folders
    by_cases h1 : ((findBogMentions q).isEmpty && (findYearMentions q).isEmpty) = true
    · rw [if_pos h1]
      rw [Bool.and_eq_true, List.isEmpty_iff, List.isEmpty_iff] at h1
      simp [h1]
    · rw [if_neg h1]
      rw [Bool.and_eq_true, List.isEmpty_iff, List.isEmpty_iff] at h1
      constructor
      · intro h
        by_cases h2 : (detectedFolders q names).isEmpty = true
        · rw [if_pos h2] at h
          rw [Except.error.injEq] at h
          exact absurd h.symm hne
        · rw [if_neg h2] at h
          exact absurd h (by simp)
      · intro h
        exact absurd h h1
  · intro q names
    unfold extract_bog_folders
    by_cases h1 : ((findBogMentions q).isEmpty && (findYearMentions q).isEmpty) = true
    · rw [if_pos h1]
      rw [Bool.and_eq_true, List.isEmpty_iff, List.isEmpty_iff] at h1
      constructor
      · intro h
        rw [Except.error.injEq] at h
        exact absurd h hne
      · intro h
        exact absurd h1 h.1
    · rw [if_neg h1]
      rw [Bool.and_eq_true, List.isEmpty_iff, List.isEmpty_iff] at h1
      by_cases h2 : (detectedFolders q names).isEmpty = true
      · rw [if_pos h2]
        rw [List.isEmpty_iff] at h2
        exact ⟨fun _ => ⟨h1, h2⟩, fun _ => rfl⟩
      · rw [if_neg h2]
        rw [List.isEmpty_iff] at h2
        constructor
        · intro h
          exact absurd h (by simp)
        · intro h
          exact absurd h.2 h2
  · intro env q msg h
    simp [handle_input, h]

/-- C6 witness: a query with no identifiers is answered with the guidance
message, not an exception. -/
theorem C6_witness :
    handle_input ⟨[], .success "ok"⟩ "hello" = .ok noIdentifierMsg :=
  C6_selector_failures.2.2 ⟨[], .success "ok"⟩ "hello" noIdentifierMsg (by decide)

/-- C10.  `handle_input` never escapes with the `KeyError` of a failed
registry lookup: every key the selector returns is drawn from the
registry's own keys, which are unchanged between selection and
retrieval. -/
theorem C10_lookup_safe (env : Env) (q : String) :
    ∃ s, handle_input env q = .ok s := by
  unfold handle_input
  cases hx : extract_bog_folders q (env.stores.map Prod.fst) with
  | error ve => exact ⟨ve, rfl⟩
  | ok keys =>
    have hsub : ∀ k ∈ keys, k ∈ env.stores.map Prod.fst :=
      extract_ok_sub q (env.stores.map Prod.fst) keys hx
    dsimp only
    rw [retrieveLoop_eq env q keys [] hsub]
    dsimp only
    split
    · exact ⟨_, rfl⟩
    · exact ⟨_, rfl⟩

/-- C7.  The evidence aggregator deduplicates globally by exact text
across the selected partitions, first occurrence winning in partition
order then rank order, and `handle_input` joins the surviving texts with
a blank line in that order. -/
theorem C7_dedup_aggregation (env : Env) (q : String) (keys : List String)
    (hsub : ∀ k ∈ keys, k ∈ env.stores.map Prod.fst) :
    retrieveLoop env q keys [] [] =
      .ok (firstDedup ((keys.map (retrDocs env q)).flatten)) ∧
    (firstDedup ((keys.map (retrDocs env q)).flatten)).Nodup ∧
    (firstDedup ((keys.map (retrDocs env q)).flatten)).Sublist
      ((keys.map (retrDocs env q)).flatten) ∧
    (∀ x, x ∈ firstDedup ((keys.map (retrDocs env q)).flatten) ↔
        x ∈ (keys.map (retrDocs env q)).flatten) ∧
    (extract_bog_folders q (env.stores.map Prod.fst) = .ok keys →
      handle_input env q =
        if (pyStripList (String.intercalate "\n\n"
            (firstDedup ((keys.map (retrDocs env q)).flatten))).data).isEmpty then
          .ok noContextMsg
        else
          .ok (query_with_context q
            (String.intercalate "\n\n"
              (firstDedup ((keys.map (retrDocs env q)).flatten))) env.net)) := by
  have hloop := retrieveLoop_eq env q keys [] hsub
  obtain ⟨t, ht, hs⟩ := foldl_dedupIns_sublist ((keys.map (retrDocs env q)).flatten) []
  have hfd : firstDedup ((keys.map (retrDocs env q)).flatten) =
      ((keys.map (retrDocs env q)).flatten).foldl dedupIns [] := rfl
  refine ⟨by rw [hloop, hfd], ?_, ?_, ?_, ?_⟩
  · exact nodup_foldl_dedupIns _ [] List.nodup_nil
  · rw [hfd, ht]; simpa using hs
  · intro x
    rw [hfd]
    simpa using mem_setUpdate x ((keys.map (retrDocs env q)).flatten) []
  · intro hx
    unfold handle_input
    rw [hx]
    dsimp only
    rw [hloop]
    dsimp only
    rw [← hfd]

/-- C7 witness: two partitions returning the same chunk text contribute
it once, in first-encountered order. -/
theorem C7_witness :
    retrieveLoop c7Env "q" ["A", "B"] [] [] = .ok ["dup", "a1", "b1"] := by
  have h := (C7_dedup_aggregation c7Env "q" ["A", "B"] (by decide)).1
  rw [h]
  decide

/-! ## Normalizer lemmas (claim C2)

The removal stages of `clean_text` can leave whitespace that only a
second pass collapses, so the pipeline is not idempotent in general; the
lemmas below isolate exactly when each stage can fire again. -/

theorem space_cases (c : Char) (h : isSpacePy c = true) :
    c = ' ' ∨ c = '\t' ∨ c = '\n' ∨ c = '\r' ∨ c = '\x0b' ∨ c = '\x0c' := by
  unfold isSpacePy at h
  simp only [Bool.or_eq_true, decide_eq_true_eq] at h
  tauto

theorem not_word_of_space (c : Char) (h : isSpacePy c = true) : isWordPy c = false := by
  rcases space_cases c h with rfl | rfl | rfl | rfl | rfl | rfl <;> decide

theorem not_dash_of_space (c : Char) (h : isSpacePy c = true) : c ≠ '-' := by
  rcases space_cases c h with rfl | rfl | rfl | rfl | rfl | rfl <;> decide

theorem toLower_of_space (c : Char) (h : isSpacePy c = true) : c.toLower = c := by
  rcases space_cases c h with rfl | rfl | rfl | rfl | rfl | rfl <;> decide

theorem not_alpha_of_space (c : Char) (h : isSpacePy c = true) : c.isAlpha = false := by
  rcases space_cases c h with rfl | rfl | rfl | rfl | rfl | rfl <;> decide

theorem not_digit_of_space (c : Char) (h : isSpacePy c = true) : c.isDigit = false := by
  rcases space_cases c h with rfl | rfl | rfl | rfl | rfl | rfl <;> decide

theorem takeWhile_append_all {α : Type} (p : α → Bool) (a b : List α)
    (h : ∀ x ∈ a, p x = true) : (a ++ b).takeWhile p = a ++ b.takeWhile p := by
  induction a with
  | nil => simp
  | cons x a' ih =>
    have hx : p x = true := h x (by simp)
    simp only [List.cons_append, List.takeWhile_cons, hx, if_true, List.cons.injEq, true_and]
    exact ih (fun y hy => h y (by simp [hy]))

theorem dropWhile_append_all {α : Type} (p : α → Bool) (a b : List α)
    (h : ∀ x ∈ a, p x = true) : (a ++ b).dropWhile p = b.dropWhile p := by
  induction a with
  | nil => simp
  | cons x a' ih =>
    have hx : p x = true := h x (by simp)
    simp only [List.cons_append, List.dropWhile_cons, hx, if_true]
    exact ih (fun y hy => h y (by simp [hy]))

theorem takeWhile_append_ne {α : Type} (p : α → Bool) (a b : List α)
    (h : a.dropWhile p ≠ []) : (a ++ b).takeWhile p = a.takeWhile p := by
  induction a with
  | nil => simp at h
  | cons x a' ih =>
    cases hx : p x with
    | true =>
      have h' : a'.dropWhile p ≠ [] := by
        simpa [List.dropWhile_cons, hx] using h
      simp [List.takeWhile_cons, hx, ih h']
    | false => simp [List.takeWhile_cons, hx]

theorem dropWhile_append_ne {α : Type} (p : α → Bool) (a b : List α)
    (h : a.dropWhile p ≠ []) : (a ++ b).dropWhile p = a.dropWhile p ++ b := by
  induction a with
  | nil => simp at h
  | cons x a' ih =>
    cases hx : p x with
    | true =>
      have h' : a'.dropWhile p ≠ [] := by
        simpa [List.dropWhile_cons, hx] using h
      simp [List.dropWhile_cons, hx, ih h']
    | false => simp [List.dropWhile_cons, hx]

theorem all_of_dropWhile_nil {α : Type} (p : α → Bool) (a : List α)
    (h : a.dropWhile p = []) : ∀ x ∈ a, p x = true := by
  induction a with
  | nil => simp
  | cons x a' ih =>
    cases hx : p x with
    | true =>
      intro y hy
      rcases List.mem_cons.1 hy with rfl | hy
      · exact hx
      · exact ih (by simpa [List.dropWhile_cons, hx] using h) y hy
    | false => simp [List.dropWhile_cons, hx] at h

theorem dropWhile_nil_of_all {α : Type} (p : α → Bool) (a : List α)
    (h : ∀ x ∈ a, p x = true) : a.dropWhile p = [] := by
  induction a with
  | nil => simp
  | cons x a' ih =>
    simp [List.dropWhile_cons, h x (by simp), ih (fun y hy => h y (by simp [hy]))]

theorem length_dropWhile_le {α : Type} (p : α → Bool) (l : List α) :
    (l.dropWhile p).length ≤ l.length := by
  induction l with
  | nil => simp
  | cons x l' ih =>
    cases hx : p x with
    | true => simp only [List.dropWhile_cons, hx, if_true]; exact le_trans ih (by simp)
    | false => simp [List.dropWhile_cons, hx]

theorem dropWhile_idem {α : Type} (p : α → Bool) (l : List α) :
    (l.dropWhile p).dropWhile p = l.dropWhile p := by
  induction l with
  | nil => simp
  | cons x l' ih =>
    cases hx : p x with
    | true => simpa [List.dropWhile_cons, hx] using ih
    | false => simp [List.dropWhile_cons, hx]

theorem head_dropWhile_false {α : Type} (p : α → Bool) (l : List α) (y : α) (ys : List α)
    (h : l.dropWhile p = y :: ys) : p y = false := by
  induction l with
  | nil => simp at h
  | cons x l' ih =>
    cases hx : p x with
    | true => exact ih (by simpa [List.dropWhile_cons, hx] using h)
    | false =>
      rw [List.dropWhile_cons, hx] at h
      simp only [Bool.false_eq_true, if_false, List.cons.injEq] at h
      rw [← h.1]
      exact hx

/-! ### Characters of each stage's output -/

theorem mem_subCtrl (l : List Char) (c : Char) (h : c ∈ subCtrl l) : isCtrlPy c = false := by
  have := List.of_mem_filter h
  simpa using this

theorem mem_hjGo : ∀ (st : Option Bool) (l : List Char) (c : Char), c ∈ hjGo st l → c ∈ l := by
  intro st l
  induction l generalizing st with
  | nil => intro c hc; cases st <;> simp [hjGo] at hc
  | cons a rest ih =>
    intro c hc
    cases st with
    | some prevW =>
      rw [hjGo] at hc
      split at hc
      · exact List.mem_cons_of_mem a (ih none c hc)
      · rcases List.mem_cons.1 hc with rfl | hc
        · exact List.mem_cons_self _ _
        · exact List.mem_cons_of_mem a (ih _ c hc)
    | none =>
      rw [hjGo] at hc
      split at hc
      · exact List.mem_cons_of_mem a (ih none c hc)
      · rcases List.mem_cons.1 hc with rfl | hc
        · exact List.mem_cons_self _ _
        · exact List.mem_cons_of_mem a (ih _ c hc)

theorem mem_collapseWs : ∀ (l : List Char) (c : Char), c ∈ collapseWs l → c ∈ l ∨ c = ' '
  | [], c => by simp [collapseWs]
  | [a], c => by
    simp only [collapseWs]
    split
    · intro h; right; simpa using h
    · intro h; left; exact h
  | a :: b :: l, c => by
    simp only [collapseWs]
    split
    · intro h
      rcases mem_collapseWs (b :: l) c h with h' | h'
      · exact .inl (List.mem_cons_of_mem a h')
      · exact .inr h'
    · intro h
      rcases List.mem_cons.1 h with h' | h'
      · by_cases hws : isSpacePy a
        · right; simpa [hws] using h'
        · left; simp only [hws, if_false] at h'; simp [h']
      · rcases mem_collapseWs (b :: l) c h' with h'' | h''
        · exact .inl (List.mem_cons_of_mem a h'')
        · exact .inr h''

theorem mem_pyTrailStrip (l : List Char) (c : Char) (h : c ∈ pyTrailStrip l) : c ∈ l := by
  unfold pyTrailStrip at h
  rw [List.mem_reverse] at h
  have := (List.dropWhile_sublist (l := l.reverse) (p := isSpacePy)).mem h
  rwa [List.mem_reverse] at this

theorem mem_pyStripList (l : List Char) (c : Char) (h : c ∈ pyStripList l) : c ∈ l := by
  unfold pyStripList at h
  exact (List.dropWhile_sublist (l := l) (p := isSpacePy)).mem (mem_pyTrailStrip _ _ h)

/-! ### Glyph stage: identity exactly on glyph-free strings -/

theorem subGlyphs_length : ∀ l : List Char, (subGlyphs l).length ≤ l.length
  | [] => by simp [subGlyphs]
  | [a] => by simp only [subGlyphs]; split <;> simp
  | a :: b :: l => by
    simp only [subGlyphs]
    split
    · exact le_trans (subGlyphs_length (b :: l)) (by simp)
    · simpa using subGlyphs_length (b :: l)

theorem no_glyph_of_subGlyphs_id : ∀ l : List Char, subGlyphs l = l →
    ∀ c ∈ l, isGlyph c = false
  | [], _, c => by simp
  | [a], h, c => by
    intro hc
    rcases List.mem_singleton.1 hc with rfl
    by_cases hg : isGlyph c
    · simp only [subGlyphs, hg, if_true, List.cons.injEq] at h
      rw [← h.1] at hg
      exact absurd hg (by decide)
    · simpa using hg
  | a :: b :: l, h, c => by
    intro hc
    by_cases hab : isGlyph a && isGlyph b
    · exfalso
      simp only [subGlyphs, hab, if_true] at h
      have := subGlyphs_length (b :: l)
      rw [h] at this
      simp at this
    · simp only [subGlyphs, hab, Bool.false_eq_true, if_false, List.cons.injEq] at h
      rcases List.mem_cons.1 hc with rfl | hc
      · by_cases hg : isGlyph c
        · rw [hg] at h
          simp only [if_true] at h
          rw [← h.1] at hg
          exact absurd hg (by decide)
        · simpa using hg
      · exact no_glyph_of_subGlyphs_id (b :: l) h.2 c hc

theorem subGlyphs_id_of_no_glyph : ∀ l : List Char, (∀ c ∈ l, isGlyph c = false) →
    subGlyphs l = l
  | [], _ => rfl
  | [a], h => by
    have := h a (by simp)
    simp [subGlyphs, this]
  | a :: b :: l, h => by
    have ha := h a (by simp)
    simp only [subGlyphs, ha, Bool.false_and, Bool.false_eq_true, if_false]
    rw [subGlyphs_id_of_no_glyph (b :: l) (fun c hc => h c (List.mem_cons_of_mem a hc))]

/-! ### Hyphen stage: identity when no window matches -/

theorem hjGo_id_of_no_window : ∀ (l : List Char) (b : Bool), hwGo b l = false →
    hjGo (some b) l = l := by
  intro l
  induction l with
  | nil => intro b _; rfl
  | cons c rest ih =>
    intro b h
    rw [hwGo] at h
    rw [Bool.or_eq_false_iff] at h
    rw [hjGo, if_neg (by rw [h.1]; exact Bool.false_ne_true), ih _ h.2]

/-! ### Page stage: identity exactly when the pattern matches nowhere -/

theorem spGo_length : ∀ (st : Bool ⊕ Nat) (l : List Char), (spGo st l).length ≤ l.length := by
  intro st l
  induction l generalizing st with
  | nil => cases st <;> simp [spGo]
  | cons c rest ih =>
    cases st with
    | inl prevW =>
      rw [spGo]
      split
      · simpa using ih _
      · split
        · split
          · exact le_trans (ih _) (by simp)
          · exact le_trans (ih _) (by simp)
        · simpa using ih _
    | inr k =>
      rw [spGo]
      split
      · exact le_trans (ih _) (by simp)
      · exact le_trans (ih _) (by simp)

theorem spGo_id_of_no_page : ∀ (l : List Char) (b : Bool), hasPage b l = false →
    spGo (.inl b) l = l := by
  intro l
  induction l with
  | nil => intro b _; rfl
  | cons c rest ih =>
    intro b h
    rw [hasPage] at h
    rw [Bool.or_eq_false_iff] at h
    rw [spGo]
    cases b with
    | true => simp only [if_true]; rw [ih _ h.2]
    | false =>
      simp only [Bool.false_eq_true, if_false]
      cases hp : pageLenAt (c :: rest) with
      | some n => rw [hp] at h; simp at h
      | none => rw [ih _ h.2]

theorem no_page_of_spGo_id : ∀ (l : List Char) (b : Bool), spGo (.inl b) l = l →
    hasPage b l = false := by
  intro l
  induction l with
  | nil => intro b _; rfl
  | cons c rest ih =>
    intro b h
    rw [spGo] at h
    rw [hasPage, Bool.or_eq_false_iff]
    cases b with
    | true =>
      simp only [if_true, List.cons.injEq, true_and] at h
      exact ⟨by simp, ih _ h⟩
    | false =>
      simp only [Bool.false_eq_true, if_false] at h
      cases hp : pageLenAt (c :: rest) with
      | some n =>
        exfalso
        rw [hp] at h
        split at h
        · rename_i m heq
          injection heq with hnm
          subst hnm
          rcases le_or_lt n 1 with hn | hn
          · rw [if_pos hn] at h
            have hl := spGo_length (Sum.inl true) rest
            rw [h] at hl
            simp at hl
          · rw [if_neg (by omega)] at h
            have hl := spGo_length (Sum.inr (n - 1)) rest
            rw [h] at hl
            simp at hl
        · rename_i heq
          exact absurd heq (by simp)
      | none =>
        rw [hp] at h
        simp only [List.cons.injEq, true_and] at h
        exact ⟨by simp [hp], ih _ h⟩

/-! ### Underscore stage: identity exactly when no double underscore occurs -/

theorem suGo_length : ∀ (b : Bool) (l : List Char), (suGo b l).length ≤ l.length := by
  intro b l
  induction l generalizing b with
  | nil => simp [suGo]
  | cons c rest ih =>
    rw [suGo]
    split
    · split
      · exact le_trans (ih _) (by simp)
      · simpa using ih _
    · simpa using ih _

theorem suGo_id_of_no_uu : ∀ l : List Char, hasUU l = false → suGo false l = l := by
  intro l
  induction l with
  | nil => intro _; rfl
  | cons c rest ih =>
    intro h
    rw [hasUU, Bool.or_eq_false_iff] at h
    rw [suGo]
    by_cases hc : c = '_'
    · have hh : (rest.head? = some '_') = False := by
        simp only [hc, decide_eq_true_eq, true_and] at h
        simpa using h.1
      simp only [hc, if_true, Bool.false_or]
      rw [if_neg ?_, ih h.2]
      simp [hh]
    · simp only [hc, if_false]
      rw [ih h.2]

theorem no_uu_of_suGo_id : ∀ l : List Char, suGo false l = l → hasUU l = false := by
  intro l
  induction l with
  | nil => intro _; rfl
  | cons c rest ih =>
    intro h
    rw [suGo] at h
    rw [hasUU, Bool.or_eq_false_iff]
    by_cases hc : c = '_'
    · simp only [hc, if_true, Bool.false_or] at h ⊢
      by_cases hh : rest.head? = some '_'
      · exfalso
        rw [if_pos (by simp [hh])] at h
        have := suGo_length true rest
        rw [h] at this
        simp at this
      · rw [if_neg (by simpa using hh)] at h
        simp only [List.cons.injEq, true_and] at h
        exact ⟨by simp [hh], ih h⟩
    · simp only [hc, if_false, List.cons.injEq, true_and] at h
      exact ⟨by simp [hc], ih h⟩

/-! ### One hyphen pass leaves no window

`hjGo` rewriting a string once leaves a string in which the hyphen
pattern matches nowhere: a removal site always resumes at a word
character, and a hyphen that was not removed still fails the same
lookaround in the output. -/

theorem hjGo_cons_fire (c : Char) (l : List Char) (b : Bool)
    (h : (c = '-' && b && hyphenCond l) = true) :
    hjGo (some b) (c :: l) = hjGo none l := by
  simp only [hjGo]
  rw [if_pos h]

theorem hjGo_cons_of_not_fire (c : Char) (l : List Char) (b : Bool)
    (h : (c = '-' && b && hyphenCond l) = false) :
    hjGo (some b) (c :: l) = c :: hjGo (some (isWordPy c)) l := by
  simp only [hjGo]
  rw [if_neg (by simp [h])]

theorem hjGo_none_ws (c : Char) (l : List Char) (h : isSpacePy c = true) :
    hjGo none (c :: l) = hjGo none l := by
  simp only [hjGo]
  rw [if_pos h]

theorem hjGo_none_nws (c : Char) (l : List Char) (h : isSpacePy c = false) :
    hjGo none (c :: l) = c :: hjGo (some (isWordPy c)) l := by
  simp only [hjGo]
  rw [if_neg (by simp [h])]

theorem hwGo_cons (b : Bool) (c : Char) (l : List Char) :
    hwGo b (c :: l) = ((c = '-' && b && hyphenCond l) || hwGo (isWordPy c) l) := rfl

theorem hjGo_ws_cons (s : Char) (l : List Char) (b : Bool) (hs : isSpacePy s = true) :
    hjGo (some b) (s :: l) = s :: hjGo (some false) l := by
  rw [hjGo_cons_of_not_fire s l b (by simp [not_dash_of_space s hs]),
    not_word_of_space s hs]

theorem hjGo_ws_append : ∀ (w : List Char), (∀ x ∈ w, isSpacePy x = true) → w ≠ [] →
    ∀ (l : List Char) (b : Bool), hjGo (some b) (w ++ l) = w ++ hjGo (some false) l := by
  intro w
  induction w with
  | nil => intro _ h; exact absurd rfl h
  | cons s w' ih =>
    intro hw _ l b
    have hs : isSpacePy s = true := hw s (by simp)
    rw [List.cons_append, hjGo_ws_cons s _ _ hs]
    by_cases hw' : w' = []
    · subst hw'
      simp
    · rw [ih (fun x hx => hw x (by simp [hx])) hw' l false]
      rfl

theorem hj_confluent : ∀ (n : Nat) (l : List Char), l.length ≤ n →
    (∀ b, hwGo b (hjGo (some b) l) = false) ∧
    ((l.dropWhile isSpacePy = [] ∨ headWord (l.dropWhile isSpacePy) = true) →
      ∀ b, hwGo b (hjGo none l) = false) := by
  intro n
  induction n with
  | zero =>
    intro l hl
    have hnil : l = [] := List.length_eq_zero.1 (Nat.le_zero.1 hl)
    subst hnil
    exact ⟨fun _ => rfl, fun _ _ => rfl⟩
  | succ n ih =>
    intro l hl
    cases l with
    | nil => exact ⟨fun _ => rfl, fun _ _ => rfl⟩
    | cons c rest =>
      have hrest : rest.length ≤ n := by
        simp only [List.length_cons] at hl
        omega
      have IH := ih rest hrest
      constructor
      · intro b
        by_cases hfire : (c = '-' && b && hyphenCond rest) = true
        · rw [hjGo_cons_fire c rest b hfire]
          have hfire' := hfire
          simp only [Bool.and_eq_true] at hfire'
          have hcond : hyphenCond rest = true := hfire'.2
          refine IH.2 (Or.inr ?_) b
          unfold hyphenCond at hcond
          simp only [Bool.and_eq_true] at hcond
          exact hcond.2
        · have hf : (c = '-' && b && hyphenCond rest) = false := by
            cases hx : (c = '-' && b && hyphenCond rest) with
            | true => exact absurd hx hfire
            | false => rfl
          rw [hjGo_cons_of_not_fire c rest b hf, hwGo_cons, Bool.or_eq_false_iff]
          refine ⟨?_, IH.1 (isWordPy c)⟩
          by_cases hc : c = '-'
          · subst hc
            cases b with
            | false => simp
            | true =>
              have hcond : hyphenCond rest = false := by simpa using hf
              have hword : isWordPy '-' = false := by decide
              rw [hword]
              suffices hcc : hyphenCond (hjGo (some false) rest) = false by simp [hcc]
              by_cases htw : rest.takeWhile isSpacePy = []
              · cases rest with
                | nil => rfl
                | cons d r2 =>
                  have hd : isSpacePy d = false := by
                    cases hdd : isSpacePy d with
                    | true =>
                      rw [List.takeWhile_cons, hdd] at htw
                      simp at htw
                    | false => rfl
                  rw [hjGo_cons_of_not_fire d r2 false (by simp)]
                  unfold hyphenCond
                  rw [List.takeWhile_cons, hd]
                  simp
              · have htww : ∀ x ∈ rest.takeWhile isSpacePy, isSpacePy x = true :=
                  fun x hx => List.mem_takeWhile_imp hx
                have hhw : headWord (rest.dropWhile isSpacePy) = false := by
                  have hie : (rest.takeWhile isSpacePy).isEmpty = false := by
                    cases htw2 : rest.takeWhile isSpacePy with
                    | nil => exact absurd htw2 htw
                    | cons _ _ => rfl
                  unfold hyphenCond at hcond
                  simpa [hie] using hcond
                have hsplit : rest.takeWhile isSpacePy ++ rest.dropWhile isSpacePy = rest :=
                  List.takeWhile_append_dropWhile isSpacePy rest
                have hrw : hjGo (some false) rest =
                    rest.takeWhile isSpacePy ++ hjGo (some false) (rest.dropWhile isSpacePy) := by
                  conv_lhs => rw [← hsplit]
                  exact hjGo_ws_append _ htww htw _ false
                rw [hrw]
                cases hD : rest.dropWhile isSpacePy with
                | nil =>
                  have h0 : hjGo (some false) ([] : List Char) = [] := rfl
                  rw [h0, List.append_nil]
                  unfold hyphenCond
                  rw [dropWhile_nil_of_all _ _ htww]
                  simp [headWord]
                | cons u t' =>
                  have hu_ws : isSpacePy u = false := head_dropWhile_false _ _ _ _ hD
                  have hu_w : isWordPy u = false := by
                    rw [hD] at hhw
                    simpa [headWord] using hhw
                  rw [hjGo_cons_of_not_fire u t' false (by simp)]
                  unfold hyphenCond
                  rw [dropWhile_append_all _ _ _ htww, takeWhile_append_all _ _ _ htww]
                  simp [List.takeWhile_cons, List.dropWhile_cons, hu_ws, headWord, hu_w]
          · simp [hc]
      · intro hpre b
        by_cases hcws : isSpacePy c = true
        · rw [hjGo_none_ws c rest hcws]
          have hpre' : rest.dropWhile isSpacePy = [] ∨
              headWord (rest.dropWhile isSpacePy) = true := by
            rwa [List.dropWhile_cons, if_pos hcws] at hpre
          exact IH.2 hpre' b
        · have hcwsf : isSpacePy c = false := by
            cases hx : isSpacePy c with
            | true => exact absurd hx hcws
            | false => rfl
          have hdrop : (c :: rest).dropWhile isSpacePy = c :: rest := by
            rw [List.dropWhile_cons, hcwsf]
            simp
          rw [hdrop] at hpre
          rcases hpre with h | h
          · exact absurd h (by simp)
          · have hcw : isWordPy c = true := by simpa [headWord] using h
            rw [hjGo_none_nws c rest hcwsf, hwGo_cons, Bool.or_eq_false_iff]
            constructor
            · have hcd : (c = '-') = False := by
                refine eq_false (fun hcc => ?_)
                rw [hcc] at hcw
                exact absurd hcw (by decide)
              simp [hcd]
            · exact IH.1 (isWordPy c)

theorem hwGo_subHyphen (l : List Char) : hwGo false (subHyphen l) = false :=
  (hj_confluent l.length l le_rfl).1 false


/-! ### Collapsing whitespace preserves the absence of windows -/

theorem isEmpty_takeWhile_cons {α : Type} (p : α → Bool) (x : α) (xs : List α) :
    ((x :: xs).takeWhile p).isEmpty = !p x := by
  rw [List.takeWhile_cons]
  cases hp : p x <;> simp

theorem takeWhile_isEmpty_collapse : ∀ l : List Char,
    ((collapseWs l).takeWhile isSpacePy).isEmpty = ((l.takeWhile isSpacePy)).isEmpty
  | [] => rfl
  | [a] => by
    by_cases hws : isSpacePy a = true
    · simp only [collapseWs, hws, if_true]
      rw [isEmpty_takeWhile_cons, isEmpty_takeWhile_cons, hws]
      decide
    · simp only [collapseWs]
      rw [if_neg hws]
  | a :: b :: l => by
    by_cases hab : (isSpacePy a && isSpacePy b) = true
    · have ha : isSpacePy a = true := by
        simp only [Bool.and_eq_true] at hab
        exact hab.1
      have hb : isSpacePy b = true := by
        simp only [Bool.and_eq_true] at hab
        exact hab.2
      simp only [collapseWs, hab, if_true]
      rw [takeWhile_isEmpty_collapse (b :: l)]
      rw [isEmpty_takeWhile_cons, isEmpty_takeWhile_cons, ha, hb]
    · simp only [collapseWs]
      rw [if_neg (by simp [hab])]
      rw [isEmpty_takeWhile_cons, isEmpty_takeWhile_cons]
      by_cases hws : isSpacePy a = true
      · rw [if_pos hws, hws]
        decide
      · rw [if_neg hws]


theorem dw_pos (x : Char) (l : List Char) (h : isSpacePy x = true) :
    (x :: l).dropWhile isSpacePy = l.dropWhile isSpacePy := by
  rw [List.dropWhile_cons, if_pos h]

theorem dw_neg (x : Char) (l : List Char) (h : isSpacePy x = false) :
    (x :: l).dropWhile isSpacePy = x :: l := by
  rw [List.dropWhile_cons, h]
  simp

theorem dropWhile_collapse : ∀ l : List Char,
    (collapseWs l).dropWhile isSpacePy = collapseWs (l.dropWhile isSpacePy)
  | [] => rfl
  | [a] => by
    by_cases hws : isSpacePy a = true
    · simp only [collapseWs, hws, if_true]
      rw [dw_pos ' ' [] (by decide), dw_pos a [] hws]
      rfl
    · have hf : isSpacePy a = false := by
        cases hx : isSpacePy a with
        | true => exact absurd hx hws
        | false => rfl
      simp only [collapseWs]
      rw [if_neg hws, dw_neg a [] hf]
      simp only [collapseWs]
      rw [if_neg hws]
  | a :: b :: l => by
    by_cases hab : (isSpacePy a && isSpacePy b) = true
    · have ha : isSpacePy a = true := by
        simp only [Bool.and_eq_true] at hab
        exact hab.1
      simp only [collapseWs, hab, if_true]
      rw [dropWhile_collapse (b :: l), dw_pos a (b :: l) ha]
    · simp only [collapseWs]
      rw [if_neg (by simp [hab])]
      by_cases hws : isSpacePy a = true
      · rw [if_pos hws]
        rw [dw_pos ' ' (collapseWs (b :: l)) (by decide)]
        rw [dropWhile_collapse (b :: l), dw_pos a (b :: l) hws]
      · have hf : isSpacePy a = false := by
          cases hx : isSpacePy a with
          | true => exact absurd hx hws
          | false => rfl
        rw [if_neg hws]
        rw [dw_neg a (collapseWs (b :: l)) hf, dw_neg a (b :: l) hf]
        simp only [collapseWs]
        rw [if_neg (by simp [hab]), if_neg hws]

theorem headWord_collapse_cons (z : Char) (Z' : List Char) (hz : isSpacePy z = false) :
    headWord (collapseWs (z :: Z')) = headWord (z :: Z') := by
  cases Z' with
  | nil =>
    simp only [collapseWs]
    rw [if_neg (by simp [hz])]
  | cons w Z'' =>
    simp only [collapseWs]
    rw [if_neg (fun hc => by simp [Bool.and_eq_true, hz] at hc), if_neg (by simp [hz])]
    rfl

theorem hyphenCond_collapse (l : List Char) : hyphenCond (collapseWs l) = hyphenCond l := by
  unfold hyphenCond
  rw [takeWhile_isEmpty_collapse l, dropWhile_collapse l]
  cases hZ : l.dropWhile isSpacePy with
  | nil => rfl
  | cons u t =>
    rw [headWord_collapse_cons u t (head_dropWhile_false _ _ _ _ hZ)]

theorem hwGo_not_dash_cons (g : Bool) (c : Char) (l : List Char) (h : (c = '-') = False) :
    hwGo g (c :: l) = hwGo (isWordPy c) l := by
  rw [hwGo_cons]
  simp [h]

theorem hwGo_collapse : ∀ (l : List Char) (g : Bool),
    hwGo g l = false → hwGo g (collapseWs l) = false
  | [] => fun _ h => h
  | [a] => by
    intro g h
    by_cases hws : isSpacePy a = true
    · simp only [collapseWs, hws, if_true]
      have hd : ((' ' : Char) = '-') = False := by decide
      rw [hwGo_cons]
      simp [hd, hyphenCond, hwGo]
    · simp only [collapseWs]
      rw [if_neg hws]
      exact h
  | a :: b :: l => by
    intro g h
    rw [hwGo_cons, Bool.or_eq_false_iff] at h
    obtain ⟨h1, h2⟩ := h
    by_cases hab : (isSpacePy a && isSpacePy b) = true
    · have hb : isSpacePy b = true := by
        simp only [Bool.and_eq_true] at hab
        exact hab.2
      simp only [collapseWs, hab, if_true]
      have hbd : (b = '-') = False := eq_false (not_dash_of_space b hb)
      have h2' : hwGo g (b :: l) = false := by
        rw [hwGo_not_dash_cons g b l hbd]
        rw [hwGo_not_dash_cons (isWordPy a) b l hbd] at h2
        exact h2
      exact hwGo_collapse (b :: l) g h2'
    · simp only [collapseWs]
      rw [if_neg (by simp [hab])]
      rw [hwGo_cons, Bool.or_eq_false_iff]
      constructor
      · rw [hyphenCond_collapse]
        by_cases hws : isSpacePy a = true
        · rw [if_pos hws]
          have hd : ((' ' : Char) = '-') = False := by decide
          simp [hd]
        · rw [if_neg hws]
          exact h1
      · have he : isWordPy (if isSpacePy a then ' ' else a) = isWordPy a := by
          by_cases hws : isSpacePy a = true
          · rw [if_pos hws, not_word_of_space a hws]
            decide
          · rw [if_neg hws]
        rw [he]
        exact hwGo_collapse (b :: l) (isWordPy a) h2

/-! ### The collapsed string is whitespace-canonical -/

theorem canonB_cons (c : Char) (l : List Char) :
    canonB (c :: l) =
      ((!isSpacePy c || c = ' ') &&
       (match l with
        | [] => true
        | d :: _ => !(isSpacePy c && isSpacePy d)) &&
       canonB l) := rfl

theorem canonB_collapse : ∀ l : List Char, canonB (collapseWs l) = true
  | [] => rfl
  | [a] => by
    by_cases hws : isSpacePy a = true
    · simp only [collapseWs, hws, if_true]
      decide
    · simp only [collapseWs]
      rw [if_neg hws]
      have hf : isSpacePy a = false := by
        cases hx : isSpacePy a with
        | true => exact absurd hx hws
        | false => rfl
      simp [canonB, hf]
  | a :: b :: l => by
    by_cases hab : (isSpacePy a && isSpacePy b) = true
    · simp only [collapseWs, hab, if_true]
      exact canonB_collapse (b :: l)
    · simp only [collapseWs]
      rw [if_neg (by simp [hab])]
      have hbody := canonB_collapse (b :: l)
      rw [canonB_cons, hbody, Bool.and_true]
      rw [Bool.and_eq_true]
      constructor
      · by_cases hws : isSpacePy a = true
        · rw [if_pos hws]
          decide
        · rw [if_neg hws]
          have hf : isSpacePy a = false := by
            cases hx : isSpacePy a with
            | true => exact absurd hx hws
            | false => rfl
          simp [hf]
      · by_cases hws : isSpacePy a = true
        · have hbf : isSpacePy b = false := by
            cases hx : isSpacePy b with
            | true => exact absurd (by simp [hws, hx]) hab
            | false => rfl
          rw [if_pos hws]
          have hie : ((collapseWs (b :: l)).takeWhile isSpacePy).isEmpty = true := by
            rw [takeWhile_isEmpty_collapse (b :: l), isEmpty_takeWhile_cons, hbf]
            rfl
          cases hC : collapseWs (b :: l) with
          | nil => rfl
          | cons f C' =>
            rw [hC] at hie
            rw [isEmpty_takeWhile_cons] at hie
            have hfws : isSpacePy f = false := by
              cases hx : isSpacePy f with
              | true => rw [hx] at hie; exact absurd hie (by decide)
              | false => rfl
            simp [hfws]
        · have hf : isSpacePy a = false := by
            cases hx : isSpacePy a with
            | true => exact absurd hx hws
            | false => rfl
          rw [if_neg hws]
          cases hC : collapseWs (b :: l) with
          | nil => rfl
          | cons f C' => simp [hf]

theorem collapse_id_of_canon : ∀ l : List Char, canonB l = true → collapseWs l = l
  | [], _ => rfl
  | [a], h => by
    rw [canonB_cons] at h
    simp only [Bool.and_true, Bool.or_eq_true, Bool.and_eq_true] at h
    by_cases hws : isSpacePy a = true
    · have ha : a = ' ' := by
        rcases h.1 with h' | h'
        · rw [hws] at h'; exact absurd h' (by decide)
        · simpa using h'
      simp [collapseWs, hws, ha]
    · simp only [collapseWs]
      rw [if_neg hws]
  | a :: b :: l, h => by
    rw [canonB_cons] at h
    simp only [Bool.and_eq_true, Bool.or_eq_true] at h
    obtain ⟨⟨hok, hadj⟩, htail⟩ := h
    have hab : (isSpacePy a && isSpacePy b) = false := by
      cases hx : (isSpacePy a && isSpacePy b) with
      | true => rw [hx] at hadj; exact absurd hadj (by decide)
      | false => rfl
    simp only [collapseWs]
    rw [if_neg (by simp [hab])]
    rw [collapse_id_of_canon (b :: l) htail]
    by_cases hws : isSpacePy a = true
    · have ha : a = ' ' := by
        rcases hok with h' | h'
        · rw [hws] at h'; exact absurd h' (by decide)
        · simpa using h'
      rw [if_pos hws, ha]
    · rw [if_neg hws]

theorem canonB_tail (c : Char) (l : List Char) (h : canonB (c :: l) = true) :
    canonB l = true := by
  rw [canonB_cons, Bool.and_eq_true, Bool.and_eq_true] at h
  exact h.2

theorem canonB_dropWhile (p : Char → Bool) : ∀ l : List Char, canonB l = true →
    canonB (l.dropWhile p) = true := by
  intro l
  induction l with
  | nil => intro h; exact h
  | cons c l' ih =>
    intro h
    rw [List.dropWhile_cons]
    split
    · exact ih (canonB_tail c l' h)
    · exact h

theorem canonB_append_left : ∀ (m w : List Char), canonB (m ++ w) = true → canonB m = true
  | [], _, _ => rfl
  | c :: m', w, h => by
    rw [List.cons_append, canonB_cons] at h
    rw [Bool.and_eq_true, Bool.and_eq_true] at h
    obtain ⟨⟨hok, hadj⟩, htail⟩ := h
    rw [canonB_cons, Bool.and_eq_true, Bool.and_eq_true]
    refine ⟨⟨hok, ?_⟩, canonB_append_left m' w htail⟩
    cases m' with
    | nil => rfl
    | cons d m'' => exact hadj

/-! ### Stripping -/

theorem trail_split (l : List Char) :
    pyTrailStrip l ++ (l.reverse.takeWhile isSpacePy).reverse = l := by
  unfold pyTrailStrip
  rw [← List.reverse_append, List.takeWhile_append_dropWhile, List.reverse_reverse]

theorem trail_ws (l : List Char) :
    ∀ x ∈ (l.reverse.takeWhile isSpacePy).reverse, isSpacePy x = true := by
  intro x hx
  rw [List.mem_reverse] at hx
  exact List.mem_takeWhile_imp hx

theorem pyTrailStrip_idem (l : List Char) : pyTrailStrip (pyTrailStrip l) = pyTrailStrip l := by
  unfold pyTrailStrip
  rw [List.reverse_reverse, dropWhile_idem]

theorem dropWhile_pyTrailStrip (l : List Char) (h : l.dropWhile isSpacePy = l) :
    (pyTrailStrip l).dropWhile isSpacePy = pyTrailStrip l := by
  cases hP : pyTrailStrip l with
  | nil => rfl
  | cons p P' =>
    have hpl : ∃ W, l = p :: (P' ++ W) := by
      refine ⟨(l.reverse.takeWhile isSpacePy).reverse, ?_⟩
      conv_lhs => rw [← trail_split l]
      rw [hP]
      rfl
    obtain ⟨W, hW⟩ := hpl
    have hp : isSpacePy p = false := by
      cases hx : isSpacePy p with
      | true =>
        exfalso
        rw [hW, dw_pos p _ hx] at h
        have := length_dropWhile_le isSpacePy (P' ++ W)
        rw [h] at this
        simp at this
      | false => rfl
    rw [dw_neg p P' hp]

theorem pyStripList_idem (l : List Char) : pyStripList (pyStripList l) = pyStripList l := by
  unfold pyStripList
  rw [dropWhile_pyTrailStrip _ (dropWhile_idem isSpacePy l), pyTrailStrip_idem]

/-! ### Edge whitespace does not create matches -/

theorem hwGo_false_ws_cons (s : Char) (l : List Char) (hs : isSpacePy s = true) :
    hwGo false (s :: l) = hwGo false l := by
  rw [hwGo_cons, not_word_of_space s hs]
  simp

theorem hwGo_dropWhile (l : List Char) :
    hwGo false (l.dropWhile isSpacePy) = hwGo false l := by
  induction l with
  | nil => rfl
  | cons c l' ih =>
    cases hc : isSpacePy c with
    | true => rw [dw_pos c l' hc, ih, hwGo_false_ws_cons c l' hc]
    | false => rw [dw_neg c l' hc]

theorem hyphenCond_append_of (m w : List Char) (h : hyphenCond m = true) :
    hyphenCond (m ++ w) = true := by
  unfold hyphenCond at h ⊢
  rw [Bool.and_eq_true] at h
  obtain ⟨h1, h2⟩ := h
  have htw : m.takeWhile isSpacePy ≠ [] := by
    intro hc
    rw [hc] at h1
    exact absurd h1 (by decide)
  have hdw : m.dropWhile isSpacePy ≠ [] := by
    intro hc
    rw [hc] at h2
    exact absurd h2 (by decide)
  rw [takeWhile_append_ne _ _ _ hdw, dropWhile_append_ne _ _ _ hdw]
  rw [Bool.and_eq_true]
  refine ⟨h1, ?_⟩
  cases hD : m.dropWhile isSpacePy with
  | nil => exact absurd hD hdw
  | cons u t =>
    rw [hD] at h2
    exact h2

theorem hwGo_ws_all (w : List Char) (hw : ∀ x ∈ w, isSpacePy x = true) :
    ∀ b, hwGo b w = false := by
  induction w with
  | nil => intro b; rfl
  | cons s w' ih =>
    intro b
    have hs : isSpacePy s = true := hw s (by simp)
    rw [hwGo_cons, not_word_of_space s hs, Bool.or_eq_false_iff]
    refine ⟨by simp [not_dash_of_space s hs], ih (fun x hx => hw x (by simp [hx])) false⟩

theorem hwGo_append_right (w : List Char) :
    ∀ (m : List Char) (g : Bool), hwGo g (m ++ w) = false → hwGo g m = false := by
  intro m
  induction m with
  | nil => intro g _; rfl
  | cons c m' ih =>
    intro g h
    rw [List.cons_append, hwGo_cons, Bool.or_eq_false_iff] at h
    obtain ⟨h1, h2⟩ := h
    rw [hwGo_cons, Bool.or_eq_false_iff]
    refine ⟨?_, ih _ h2⟩
    cases hcond : hyphenCond m' with
    | false => simp [hcond]
    | true =>
      rw [hyphenCond_append_of m' w hcond] at h1
      simpa using h1

/-! ### The page pattern and edge whitespace -/

theorem matchLit_append_ws :
    ∀ (lit : List Char), (∀ d ∈ lit, d.isAlpha = true) →
    ∀ (s w : List Char), (∀ x ∈ w, isSpacePy x = true) →
      matchLit lit (s ++ w) = (matchLit lit s).map (fun r => r ++ w)
  | [], _, s, w, _ => by simp [matchLit]
  | d :: ds, hlit, [], w, hw => by
    cases w with
    | nil => simp [matchLit]
    | cons x w' =>
      have hx : isSpacePy x = true := hw x (by simp)
      have hxd : (x.toLower = d) = False := by
        refine eq_false (fun hc => ?_)
        rw [toLower_of_space x hx] at hc
        subst hc
        have := hlit x (by simp)
        rw [not_alpha_of_space x hx] at this
        exact absurd this (by decide)
      simp [matchLit, hxd]
  | d :: ds, hlit, c :: s', w, hw => by
    simp only [List.cons_append, matchLit]
    by_cases h : c.toLower = d
    · rw [if_pos h, if_pos h]
      exact matchLit_append_ws ds (fun e he => hlit e (by simp [he])) s' w hw
    · rw [if_neg h, if_neg h]
      rfl

theorem pageLit_alpha : ∀ d ∈ "page".data, d.isAlpha = true := by decide

theorem paseLit_alpha : ∀ d ∈ "pase".data, d.isAlpha = true := by decide


theorem pageTail_append_ws (r w : List Char) (hw : ∀ x ∈ w, isSpacePy x = true) :
    pageTail (r ++ w) = pageTail r := by
  by_cases ht : r.dropWhile isSpacePy = []
  · have hall := all_of_dropWhile_nil _ _ ht
    have h1 : (r ++ w).dropWhile isSpacePy = [] := by
      rw [dropWhile_append_all _ _ _ hall]
      exact dropWhile_nil_of_all _ _ hw
    unfold pageTail
    rw [ht, h1]
    simp
  · have h2 : (r ++ w).dropWhile isSpacePy = r.dropWhile isSpacePy ++ w :=
      dropWhile_append_ne _ _ _ ht
    have h3 : (r ++ w).takeWhile isSpacePy = r.takeWhile isSpacePy :=
      takeWhile_append_ne _ _ _ ht
    unfold pageTail
    rw [h2, h3]
    by_cases hd : (r.dropWhile isSpacePy).dropWhile Char.isDigit = []
    · have halld := all_of_dropWhile_nil _ _ hd
      have hwt : w.takeWhile Char.isDigit = [] := by
        cases w with
        | nil => rfl
        | cons x w' =>
          rw [List.takeWhile_cons, not_digit_of_space x (hw x (by simp))]
          simp
      have hwd : w.dropWhile Char.isDigit = w := by
        cases w with
        | nil => rfl
        | cons x w' =>
          rw [List.dropWhile_cons, not_digit_of_space x (hw x (by simp))]
          simp
      have h4 : (r.dropWhile isSpacePy ++ w).takeWhile Char.isDigit =
          r.dropWhile isSpacePy := by
        rw [takeWhile_append_all _ _ _ halld, hwt, List.append_nil]
      have h5 : (r.dropWhile isSpacePy ++ w).dropWhile Char.isDigit = w := by
        rw [dropWhile_append_all _ _ _ halld, hwd]
      have h6 : (r.dropWhile isSpacePy).takeWhile Char.isDigit = r.dropWhile isSpacePy := by
        conv_rhs => rw [← List.takeWhile_append_dropWhile Char.isDigit (r.dropWhile isSpacePy)]
        rw [hd, List.append_nil]
      rw [h4, h5, h6, hd]
      cases hwc : w with
      | nil => rfl
      | cons x w' =>
        have hxw := not_word_of_space x (hw x (by rw [hwc]; simp))
        simp [hxw]
    · obtain ⟨v, r2, hv⟩ : ∃ v r2,
          (r.dropWhile isSpacePy).dropWhile Char.isDigit = v :: r2 := by
        cases hx : (r.dropWhile isSpacePy).dropWhile Char.isDigit with
        | nil => exact absurd hx hd
        | cons v r2 => exact ⟨v, r2, rfl⟩
      have h7 : (r.dropWhile isSpacePy ++ w).takeWhile Char.isDigit =
          (r.dropWhile isSpacePy).takeWhile Char.isDigit := takeWhile_append_ne _ _ _ hd
      have h8 : (r.dropWhile isSpacePy ++ w).dropWhile Char.isDigit =
          (r.dropWhile isSpacePy).dropWhile Char.isDigit ++ w := dropWhile_append_ne _ _ _ hd
      rw [h7, h8, hv]
      rfl

theorem pageLenAt_append_ws (s w : List Char) (hw : ∀ x ∈ w, isSpacePy x = true) :
    pageLenAt (s ++ w) = pageLenAt s := by
  unfold pageLenAt
  rw [matchLit_append_ws _ pageLit_alpha s w hw, matchLit_append_ws _ paseLit_alpha s w hw]
  cases h1 : matchLit "page".data s with
  | some r =>
    simp only [Option.map_some', Option.orElse, pageTail_append_ws r w hw]
  | none =>
    simp only [Option.map_none', Option.orElse]
    cases h2 : matchLit "pase".data s with
    | some r => simp only [Option.map_some', pageTail_append_ws r w hw]
    | none => simp only [Option.map_none']

theorem pageLenAt_ws_head (x : Char) (l : List Char) (hx : isSpacePy x = true) :
    pageLenAt (x :: l) = none := by
  have hxp : (x.toLower = 'p') = False := by
    refine eq_false (fun hc => ?_)
    rw [toLower_of_space x hx] at hc
    rw [hc] at hx
    exact absurd hx (by decide)
  have h1 : matchLit "page".data (x :: l) = none := by
    show matchLit ('p' :: "age".data) (x :: l) = none
    simp only [matchLit, hxp]
    simp
  have h2 : matchLit "pase".data (x :: l) = none := by
    show matchLit ('p' :: "ase".data) (x :: l) = none
    simp only [matchLit, hxp]
    simp
  unfold pageLenAt
  rw [h1, h2]
  rfl

theorem hasPage_cons (b : Bool) (c : Char) (l : List Char) :
    hasPage b (c :: l) = ((!b && (pageLenAt (c :: l)).isSome) || hasPage (isWordPy c) l) := rfl

theorem hasPage_ws_all (w : List Char) (hw : ∀ x ∈ w, isSpacePy x = true) :
    ∀ b, hasPage b w = false := by
  induction w with
  | nil => intro _; rfl
  | cons s w' ih =>
    intro b
    have hs : isSpacePy s = true := hw s (by simp)
    rw [hasPage_cons, pageLenAt_ws_head s w' hs, not_word_of_space s hs]
    simp only [Option.isSome_none, Bool.and_false, Bool.false_or]
    exact ih (fun x hx => hw x (by simp [hx])) false

theorem hasPage_dropWhile (l : List Char) :
    hasPage false (l.dropWhile isSpacePy) = hasPage false l := by
  induction l with
  | nil => rfl
  | cons c l' ih =>
    cases hc : isSpacePy c with
    | true =>
      rw [dw_pos c l' hc, ih, hasPage_cons, pageLenAt_ws_head c l' hc, not_word_of_space c hc]
      simp
    | false => rw [dw_neg c l' hc]

theorem hasPage_append_ws (w : List Char) (hw : ∀ x ∈ w, isSpacePy x = true) :
    ∀ (m : List Char) (b : Bool), hasPage b (m ++ w) = hasPage b m := by
  intro m
  induction m with
  | nil =>
    intro b
    rw [List.nil_append, hasPage_ws_all w hw b]
    rfl
  | cons c m' ih =>
    intro b
    rw [List.cons_append, hasPage_cons, hasPage_cons]
    have : (c :: (m' ++ w)) = (c :: m') ++ w := rfl
    rw [this, pageLenAt_append_ws (c :: m') w hw, ih (isWordPy c)]

theorem hasUU_cons (c : Char) (l : List Char) :
    hasUU (c :: l) = ((c = '_' && l.head? = some '_') || hasUU l) := rfl

theorem hasUU_dropWhile (p : Char → Bool) (l : List Char) (h : hasUU l = false) :
    hasUU (l.dropWhile p) = false := by
  induction l with
  | nil => exact h
  | cons c l' ih =>
    rw [hasUU_cons, Bool.or_eq_false_iff] at h
    rw [List.dropWhile_cons]
    split
    · exact ih h.2
    · rw [hasUU_cons, Bool.or_eq_false_iff]
      exact h

theorem hasUU_append_right (w : List Char) :
    ∀ m, hasUU (m ++ w) = false → hasUU m = false := by
  intro m
  induction m with
  | nil => intro _; rfl
  | cons c m' ih =>
    intro h
    rw [List.cons_append, hasUU_cons, Bool.or_eq_false_iff] at h
    rw [hasUU_cons, Bool.or_eq_false_iff]
    refine ⟨?_, ih h.2⟩
    cases m' with
    | nil => simp
    | cons d m'' => exact h.1

/-- A string with no control characters, no window, no glyphs, no page
match, no double underscore, in canonical whitespace form, is fixed by
the whole pipeline once its edges are stripped. -/
theorem clean_stages_fix (y3 : List Char)
    (hwy3 : hwGo false y3 = false)
    (hcanon : canonB y3 = true)
    (hglyph3 : ∀ c ∈ y3, isGlyph c = false)
    (hpage3 : hasPage false y3 = false)
    (huu3 : hasUU y3 = false)
    (hctrl3 : ∀ c ∈ y3, isCtrlPy c = false) :
    pyStripList (subUnderscores (subPage (subGlyphs (collapseWs
      (subHyphen (subCtrl (pyStripList y3))))))) = pyStripList y3 := by
  have hsplit : pyStripList y3 ++
      ((y3.dropWhile isSpacePy).reverse.takeWhile isSpacePy).reverse =
      y3.dropWhile isSpacePy := trail_split (y3.dropWhile isSpacePy)
  have hwtr : ∀ c ∈ ((y3.dropWhile isSpacePy).reverse.takeWhile isSpacePy).reverse,
      isSpacePy c = true := trail_ws (y3.dropWhile isSpacePy)
  have hmemy3 : ∀ c ∈ pyStripList y3, c ∈ y3 := fun c hc => mem_pyStripList y3 c hc
  have hAeq : subCtrl (pyStripList y3) = pyStripList y3 := by
    refine List.filter_eq_self.2 (fun c hc => ?_)
    rw [hctrl3 c (hmemy3 c hc)]
    rfl
  rw [hAeq]
  have hwA : hwGo false (y3.dropWhile isSpacePy) = false := by
    rw [hwGo_dropWhile]
    exact hwy3
  have hwout : hwGo false (pyStripList y3) = false := by
    refine hwGo_append_right ((y3.dropWhile isSpacePy).reverse.takeWhile isSpacePy).reverse
      (pyStripList y3) false ?_
    rw [hsplit]
    exact hwA
  have hBeq : subHyphen (pyStripList y3) = pyStripList y3 :=
    hjGo_id_of_no_window (pyStripList y3) false hwout
  rw [hBeq]
  have hcanonA : canonB (y3.dropWhile isSpacePy) = true :=
    canonB_dropWhile _ _ hcanon
  have hcanonOut : canonB (pyStripList y3) = true := by
    refine canonB_append_left (pyStripList y3)
      ((y3.dropWhile isSpacePy).reverse.takeWhile isSpacePy).reverse ?_
    rw [hsplit]
    exact hcanonA
  rw [collapse_id_of_canon _ hcanonOut]
  rw [subGlyphs_id_of_no_glyph _ (fun c hc => hglyph3 c (hmemy3 c hc))]
  have hpageA : hasPage false (y3.dropWhile isSpacePy) = false := by
    rw [hasPage_dropWhile]
    exact hpage3
  have hpageOut : hasPage false (pyStripList y3) = false := by
    rw [← hasPage_append_ws _ hwtr (pyStripList y3) false, hsplit]
    exact hpageA
  have hEeq : subPage (pyStripList y3) = pyStripList y3 :=
    spGo_id_of_no_page _ false hpageOut
  rw [hEeq]
  have huuA : hasUU (y3.dropWhile isSpacePy) = false :=
    hasUU_dropWhile isSpacePy y3 huu3
  have huuOut : hasUU (pyStripList y3) = false := by
    refine hasUU_append_right ((y3.dropWhile isSpacePy).reverse.takeWhile isSpacePy).reverse
      (pyStripList y3) ?_
    rw [hsplit]
    exact huuA
  have hFeq : subUnderscores (pyStripList y3) = pyStripList y3 :=
    suGo_id_of_no_uu _ huuOut
  rw [hFeq]
  exact pyStripList_idem y3

/-- C2 counterexample: the glyph stage replaces each bullet of `a• •b`
with a space, leaving a three-space run that only the collapse stage of a
second pass normalises, so `clean_text` is not idempotent. -/
theorem C2_counterexample :
    clean_text "a• •b" = "a   b" ∧
    clean_text (clean_text "a• •b") = "a b" ∧
    clean_text (clean_text "a• •b") ≠ clean_text "a• •b" := by
  refine ⟨by decide, by decide, by decide⟩

/-- C2 (amended).  `clean_text` is idempotent on every input on which its
three removal stages (bullet glyphs, page/pase tokens, underscore runs)
act as the identity at their point in the first pass: the control-strip,
hyphen-join, whitespace-collapse and trim stages alone can never create
new work for a second pass. -/
theorem C2_amended (x : String)
    (h4 : subGlyphs (collapseWs (subHyphen (subCtrl x.data))) =
          collapseWs (subHyphen (subCtrl x.data)))
    (h5 : subPage (collapseWs (subHyphen (subCtrl x.data))) =
          collapseWs (subHyphen (subCtrl x.data)))
    (h6 : subUnderscores (collapseWs (subHyphen (subCtrl x.data))) =
          collapseWs (subHyphen (subCtrl x.data))) :
    clean_text (clean_text x) = clean_text x := by
  by_cases hx : x = ""
  · rw [hx]
    decide
  · have hct : clean_text x =
        String.mk (pyStripList (collapseWs (subHyphen (subCtrl x.data)))) := by
      unfold clean_text
      rw [if_neg hx, h4, h5, h6]
    rw [hct]
    have hwy3 : hwGo false (collapseWs (subHyphen (subCtrl x.data))) = false :=
      hwGo_collapse _ false (hwGo_subHyphen (subCtrl x.data))
    have hcanon : canonB (collapseWs (subHyphen (subCtrl x.data))) = true :=
      canonB_collapse _
    have hglyph3 : ∀ c ∈ collapseWs (subHyphen (subCtrl x.data)), isGlyph c = false :=
      no_glyph_of_subGlyphs_id _ h4
    have hpage3 : hasPage false (collapseWs (subHyphen (subCtrl x.data))) = false :=
      no_page_of_spGo_id _ false h5
    have huu3 : hasUU (collapseWs (subHyphen (subCtrl x.data))) = false :=
      no_uu_of_suGo_id _ h6
    have hctrl3 : ∀ c ∈ collapseWs (subHyphen (subCtrl x.data)), isCtrlPy c = false := by
      intro c hc
      rcases mem_collapseWs _ c hc with hch | hch
      · exact mem_subCtrl _ c (mem_hjGo _ _ c hch)
      · rw [hch]
        decide
    by_cases hmk : String.mk (pyStripList (collapseWs (subHyphen (subCtrl x.data)))) = ""
    · rw [hmk]
      decide
    · unfold clean_text
      rw [if_neg hmk]
      have hdata : (String.mk (pyStripList (collapseWs (subHyphen (subCtrl x.data))))).data =
          pyStripList (collapseWs (subHyphen (subCtrl x.data))) := rfl
      rw [hdata, clean_stages_fix _ hwy3 hcanon hglyph3 hpage3 huu3 hctrl3]

/-- C2 amended witness: whitespace-only normalisation is idempotent. -/
theorem C2_amended_witness :
    clean_text (clean_text "hello   world") = clean_text "hello   world" :=
  C2_amended "hello   world" (by decide) (by decide) (by decide)
